import Mathlib

/-!
Verification of the shortest-path search core of an Advent-of-Code 2024
repository (days 16 and 18, plus the shared grid utilities in `lib.rs`).

The Rust sources are shallowly embedded:
* `i64` becomes `Int`, `usize` becomes `Nat` (all scores are sums of the
  positive costs 1 and 1001, so no overflow is reachable at puzzle scale);
* `HashSet`/`HashMap` become `List`/association lists (membership and
  lookup-with-shadowing reproduce the observable behaviour);
* `BinaryHeap` with the reversed `Ord` on `score_so_far` becomes a list
  together with `popMinBy`, which removes one entry of minimal score
  (the source's tie-break among equal scores is arbitrary; here it is the
  leftmost minimal entry, one of the behaviours the heap may exhibit);
* the `while let` / `loop` constructs become fuel-indexed iteration of an
  explicit step function; `none` means the fuel ran out, `some r` means the
  loop really finished with result `r`;
* `panic!`/`expect`/`unwrap` become `Option`/`Except.error`.
-/

namespace Aoc2024

/-- `Direction` from `lib.rs`. -/
inductive Direction : Type where
  | Up : Direction
  | Down : Direction
  | Left : Direction
  | Right : Direction
deriving DecidableEq

/-- `Direction::to_dx_dy` from `lib.rs` ((0,0) is the bottom-left corner, `Up` increases `y`). -/
def Direction.to_dx_dy : Direction → Int × Int
  | .Up => (0, 1)
  | .Down => (0, -1)
  | .Left => (-1, 0)
  | .Right => (1, 0)

/-- `Direction::turn_right` from `lib.rs`. -/
def Direction.turn_right : Direction → Direction
  | .Up => .Right
  | .Down => .Left
  | .Left => .Up
  | .Right => .Down

/-- `Direction::turn_left` from `lib.rs`. -/
def Direction.turn_left : Direction → Direction
  | .Up => .Left
  | .Down => .Right
  | .Left => .Down
  | .Right => .Up

/-- `Coord` from `lib.rs`: a pair of `i64`. -/
structure Coord : Type where
  x : Int
  y : Int
deriving DecidableEq

/-- `Coord::step` from `lib.rs`. -/
def Coord.step (c : Coord) (dx dy : Int) : Coord :=
  ⟨c.x + dx, c.y + dy⟩

/-- `Coord::step_in_direction` from `lib.rs`. -/
def Coord.step_in_direction (c : Coord) (d : Direction) : Coord :=
  c.step d.to_dx_dy.1 d.to_dx_dy.2

/-- `Maze` from `lib.rs` (`end` is a Lean keyword, hence the field name `end_`;
the wall `HashSet` is a list queried by membership). -/
structure Maze : Type where
  start : Coord
  end_ : Coord
  walls : List Coord
deriving DecidableEq

/-- The cells scanned by `parse_maze` (`lib.rs` lines 246–257), in scan order:
lines are enumerated in reverse (so `(0,0)` is the bottom-left corner), and
each character is paired with its coordinate `(x, y)`. -/
def parseCells (input : List (List Char)) : List (Coord × Char) :=
  input.reverse.enum.flatMap fun yl =>
    yl.2.enum.map fun xc => (⟨(xc.1 : Int), (yl.1 : Int)⟩, xc.2)

/-- The body of the `parse_maze` scan (`lib.rs` lines 249–256) applied to one
cell: record an `'S'` as the start, an `'E'` as the end, a `'#'` as a wall. -/
def parse_step (acc : Option Coord × Option Coord × List Coord) (pc : Coord × Char) :
    Option Coord × Option Coord × List Coord :=
  if pc.2 = 'S' then (some pc.1, acc.2.1, acc.2.2)
  else if pc.2 = 'E' then (acc.1, some pc.1, acc.2.2)
  else if pc.2 = '#' then (acc.1, acc.2.1, pc.1 :: acc.2.2)
  else acc

/-- `parse_maze` from `lib.rs`. The two `expect` panics (missing `'S'` or
missing `'E'`) are modeled by returning `none`. -/
def parse_maze (input : List (List Char)) : Option Maze :=
  match (parseCells input).foldl parse_step (none, none, []) with
  | (some s, some e, w) => some ⟨s, e, w⟩
  | (none, _, _) => none
  | (_, none, _) => none

deriving instance DecidableEq for Except

/-- The day-16 search state (`State` in `16.rs`): position plus facing direction. -/
structure State : Type where
  pos : Coord
  dir : Direction
deriving DecidableEq

/-- `State::start_state` from `16.rs`: the maze start, facing `Right`. -/
def State.start_state (m : Maze) : State :=
  ⟨m.start, .Right⟩

/-- `State::step` from `16.rs`. -/
def State.step (s : State) : State :=
  ⟨s.pos.step_in_direction s.dir, s.dir⟩

/-- `State::turn_left` from `16.rs`. -/
def State.turn_left (s : State) : State :=
  ⟨s.pos, s.dir.turn_left⟩

/-- `State::turn_right` from `16.rs`. -/
def State.turn_right (s : State) : State :=
  ⟨s.pos, s.dir.turn_right⟩

/-- The three compound successors offered by one expansion in both day-16
searches (`16.rs` lines 109–113 and 217–221): step forward, turn left then
step, turn right then step. -/
def successors (s : State) : List State :=
  [s.step, s.turn_left.step, s.turn_right.step]

/-- The incremental cost of moving from `s` to the compound successor `t`
(`16.rs` lines 124–128 and 227–231): 1 when the direction is unchanged,
1001 (= 1000 for the turn + 1 for the step) otherwise. -/
def stepCost (s t : State) : Nat :=
  if t.dir = s.dir then 1 else 1001

/-- `PqState` from `16.rs`: a frontier entry of the single-answer search. -/
structure PqState : Type where
  score_so_far : Nat
  state : State
deriving DecidableEq

/-- The `Ord` instance of `PqState` (`16.rs` lines 67–71): the comparison on
`score_so_far` is reversed, turning Rust's max-heap into a min-heap. -/
def PqState.cmp (a b : PqState) : Ordering :=
  compare b.score_so_far a.score_so_far

/-- `BinaryHeap::pop` on a heap whose `Ord` reverses the score comparison:
remove an entry of minimal `score` from the list (leftmost among ties). -/
def popMinBy {α : Type} (score : α → Nat) : List α → Option (α × List α)
  | [] => none
  | a :: rest =>
    match popMinBy score rest with
    | none => some (a, [])
    | some (b, rest') =>
      if score a ≤ score b then some (a, rest) else some (b, a :: rest')

theorem popMinBy_eq_none {α : Type} (score : α → Nat) (l : List α) :
    popMinBy score l = none ↔ l = [] := by
  cases l with
  | nil => simp [popMinBy]
  | cons a rest =>
    simp only [popMinBy]
    constructor
    · intro h
      rcases h' : popMinBy score rest with _ | ⟨b, rest'⟩ <;> rw [h'] at h
      · simp at h
      · by_cases hs : score a ≤ score b <;> simp [hs] at h
    · intro h
      exact absurd h (by simp)

theorem popMinBy_mem {α : Type} {score : α → Nat} {l : List α} {e : α} {r : List α}
    (h : popMinBy score l = some (e, r)) : e ∈ l := by
  induction l generalizing e r with
  | nil => simp [popMinBy] at h
  | cons a rest ih =>
    simp only [popMinBy] at h
    rcases h' : popMinBy score rest with _ | ⟨b, rest'⟩ <;> rw [h'] at h
    · simp at h
      simp [h.1]
    · by_cases hs : score a ≤ score b <;> simp [hs] at h
      · simp [h.1]
      · rcases h with ⟨hb, -⟩
        exact List.mem_cons_of_mem a (hb ▸ ih h')

theorem popMinBy_rest_subset {α : Type} {score : α → Nat} {l : List α} {e : α} {r : List α}
    (h : popMinBy score l = some (e, r)) : ∀ x ∈ r, x ∈ l := by
  induction l generalizing e r with
  | nil => simp [popMinBy] at h
  | cons a rest ih =>
    simp only [popMinBy] at h
    rcases h' : popMinBy score rest with _ | ⟨b, rest'⟩ <;> rw [h'] at h
    · simp at h
      simp [h.2]
    · by_cases hs : score a ≤ score b <;> simp [hs] at h
      · intro x hx
        rw [← h.2] at hx
        exact List.mem_cons_of_mem a hx
      · intro x hx
        rw [← h.2] at hx
        rcases List.mem_cons.mp hx with hxa | hx'
        · simp [hxa]
        · exact List.mem_cons_of_mem a (ih h' x hx')

theorem popMinBy_mem_split {α : Type} {score : α → Nat} {l : List α} {e : α} {r : List α}
    (h : popMinBy score l = some (e, r)) : ∀ x ∈ l, x = e ∨ x ∈ r := by
  induction l generalizing e r with
  | nil => simp [popMinBy] at h
  | cons a rest ih =>
    simp only [popMinBy] at h
    rcases h' : popMinBy score rest with _ | ⟨b, rest'⟩ <;> rw [h'] at h
    · simp at h
      intro x hx
      rcases List.mem_cons.mp hx with hxa | hx'
      · exact Or.inl (hxa.trans h.1)
      · rw [(popMinBy_eq_none score rest).mp h'] at hx'
        simp at hx'
    · by_cases hs : score a ≤ score b <;> simp [hs] at h
      · intro x hx
        rcases List.mem_cons.mp hx with hxa | hx'
        · exact Or.inl (hxa.trans h.1)
        · exact Or.inr (h.2 ▸ hx')
      · intro x hx
        rcases List.mem_cons.mp hx with hxa | hx'
        · exact Or.inr (h.2 ▸ (hxa ▸ List.mem_cons_self a rest'))
        · rcases ih h' x hx' with hxb | hx''
          · exact Or.inl (hxb.trans h.1)
          · exact Or.inr (h.2 ▸ List.mem_cons_of_mem a hx'')

theorem popMinBy_min {α : Type} {score : α → Nat} {l : List α} {e : α} {r : List α}
    (h : popMinBy score l = some (e, r)) : ∀ x ∈ l, score e ≤ score x := by
  induction l generalizing e r with
  | nil => simp [popMinBy] at h
  | cons a rest ih =>
    simp only [popMinBy] at h
    rcases h' : popMinBy score rest with _ | ⟨b, rest'⟩ <;> rw [h'] at h
    · simp at h
      rw [(popMinBy_eq_none score rest).mp h']
      intro x hx
      simp at hx
      simp [hx, h.1]
    · by_cases hs : score a ≤ score b <;> simp [hs] at h
      · intro x hx
        rcases List.mem_cons.mp hx with hxa | hx'
        · simp [hxa, h.1]
        · exact h.1 ▸ le_trans hs (ih h' x hx')
      · intro x hx
        rcases List.mem_cons.mp hx with hxa | hx'
        · exact h.1 ▸ (hxa ▸ le_of_lt (lt_of_not_le hs))
        · exact h.1 ▸ ih h' x hx'

theorem popMinBy_length {α : Type} {score : α → Nat} {l : List α} {e : α} {r : List α}
    (h : popMinBy score l = some (e, r)) : r.length + 1 = l.length := by
  induction l generalizing e r with
  | nil => simp [popMinBy] at h
  | cons a rest ih =>
    simp only [popMinBy] at h
    rcases h' : popMinBy score rest with _ | ⟨b, rest'⟩ <;> rw [h'] at h
    · simp at h
      rw [(popMinBy_eq_none score rest).mp h']
      simp [← h.2]
    · by_cases hs : score a ≤ score b <;> simp [hs] at h
      · simp [← h.2]
      · have := ih h'
        rw [← h.2]
        simp only [List.length_cons] at this ⊢
        omega

/-- The result of one iteration of the `while let` loop of `find_lowest_score`
(`16.rs` lines 92–136): either the function returns (`done`), or the loop
continues with an updated queue and visited set (`next`). -/
inductive FlsStepRes : Type where
  | done : Option Nat → FlsStepRes
  | next : List PqState → List State → FlsStepRes
deriving DecidableEq

/-- The entries pushed by one expansion of `find_lowest_score`
(`16.rs` lines 108–135): each of the three compound successors that is
neither a wall nor already visited, at the popped score plus the incremental
cost. `visited'` is the visited set after the popped state was inserted
(the source inserts before the push loop). -/
def flsPushes (m : Maze) (e : PqState) (visited' : List State) : List PqState :=
  (successors e.state).filterMap fun t =>
    if t.pos ∈ m.walls then none
    else if t ∈ visited' then none
    else some ⟨e.score_so_far + stepCost e.state t, t⟩

/-- One iteration of the `find_lowest_score` loop (`16.rs` lines 92–136):
pop a minimal entry (empty queue returns `None`); return its score if it sits
on the end cell; skip it if its state was already visited; otherwise mark it
visited and push the expansion entries. -/
def flsStep (m : Maze) (queue : List PqState) (visited : List State) : FlsStepRes :=
  match popMinBy PqState.score_so_far queue with
  | none => .done none
  | some (e, rest) =>
    if e.state.pos = m.end_ then .done (some e.score_so_far)
    else if e.state ∈ visited then .next rest visited
    else .next (rest ++ flsPushes m e (e.state :: visited)) (e.state :: visited)

/-- Fuel-indexed iteration of the `find_lowest_score` loop. `none` means the
fuel ran out; `some r` means the Rust loop really terminates with result `r`
(`r = none` is the `None` returned on frontier exhaustion). -/
def find_lowest_score_aux (m : Maze) : Nat → List PqState → List State → Option (Option Nat)
  | 0, _, _ => none
  | fuel + 1, queue, visited =>
    match flsStep m queue visited with
    | .done r => some r
    | .next queue' visited' => find_lowest_score_aux m fuel queue' visited'

/-- `find_lowest_score` from `16.rs` (fuel-indexed): start from the single
frontier entry `(0, start_state)` and an empty visited set. -/
def find_lowest_score (fuel : Nat) (m : Maze) : Option (Option Nat) :=
  find_lowest_score_aux m fuel [⟨0, State.start_state m⟩] []

/-- `part_one` from `16.rs`. The `expect` panic of `parse_maze` and the
`unwrap()` panic on an unreachable end are modeled as `Except.error`. -/
def part_one (fuel : Nat) (input : List (List Char)) : Option (Except Unit Nat) :=
  match parse_maze input with
  | none => some (Except.error ())
  | some m =>
    (find_lowest_score fuel m).map fun r =>
      match r with
      | some score => Except.ok score
      | none => Except.error ()

/-! ### Walk semantics of the day-16 transition system

A walk records the sequence of states visited after a starting state; each
consecutive pair must be a wall-avoiding compound transition. -/

/-- A single wall-avoiding compound transition of the day-16 searches. -/
def edgeStep (m : Maze) (s t : State) : Prop :=
  t ∈ successors s ∧ t.pos ∉ m.walls

instance (m : Maze) (s t : State) : Decidable (edgeStep m s t) :=
  inferInstanceAs (Decidable (t ∈ successors s ∧ t.pos ∉ m.walls))

/-- The total cost of a walk starting at `s` and passing through `l`. -/
def walkCost : State → List State → Nat
  | _, [] => 0
  | s, t :: l => stepCost s t + walkCost t l

/-- `IsWalk m s l`: `l` lists the successive states of a wall-avoiding walk
starting at `s`. -/
def IsWalk (m : Maze) (s : State) (l : List State) : Prop :=
  List.Chain (edgeStep m) s l

theorem isWalkNil (m : Maze) (s : State) : IsWalk m s [] := List.Chain.nil

theorem isWalkConsIff (m : Maze) (s t : State) (l : List State) :
    IsWalk m s (t :: l) ↔ edgeStep m s t ∧ IsWalk m t l := List.chain_cons

/-- A kernel-reducible decision procedure for `IsWalk` (the Mathlib `Chain`
instance is tactic-defined and does not evaluate inside `decide`). -/
def decIsWalk (m : Maze) : (s : State) → (l : List State) → Decidable (IsWalk m s l)
  | s, [] => isTrue (isWalkNil m s)
  | s, t :: l =>
    haveI : Decidable (IsWalk m t l) := decIsWalk m t l
    decidable_of_iff (edgeStep m s t ∧ IsWalk m t l) (isWalkConsIff m s t l).symm

instance (m : Maze) (s : State) (l : List State) : Decidable (IsWalk m s l) := decIsWalk m s l

/-- The final state of the walk `s :: l`. -/
def walkEnd : State → List State → State
  | s, [] => s
  | _, t :: l => walkEnd t l

/-- The set of positions visited by the walk `s :: l` (including `s.pos`). -/
def walkPositions (s : State) (l : List State) : Finset Coord :=
  insert s.pos (l.map State.pos).toFinset

/-- `Reaches m t c`: some wall-avoiding transition sequence leads from the
start state of `m` to the state `t` with total incremental cost `c`. -/
def Reaches (m : Maze) (t : State) (c : Nat) : Prop :=
  ∃ l, IsWalk m (State.start_state m) l ∧ walkEnd (State.start_state m) l = t ∧
    walkCost (State.start_state m) l = c

/-- `GoalCost m c`: some state on the end cell is reachable at total cost `c`. -/
def GoalCost (m : Maze) (c : Nat) : Prop :=
  ∃ t, Reaches m t c ∧ t.pos = m.end_

/-- `p` lies on some walk from the start state to the end cell of total cost `c`. -/
def OnOptimal (m : Maze) (c : Nat) (p : Coord) : Prop :=
  ∃ l, IsWalk m (State.start_state m) l ∧ (walkEnd (State.start_state m) l).pos = m.end_ ∧
    walkCost (State.start_state m) l = c ∧ p ∈ walkPositions (State.start_state m) l

@[simp]
theorem walkEnd_nil (s : State) : walkEnd s [] = s := rfl

@[simp]
theorem walkEnd_cons (s t : State) (l : List State) : walkEnd s (t :: l) = walkEnd t l := rfl

@[simp]
theorem walkCost_nil (s : State) : walkCost s [] = 0 := rfl

@[simp]
theorem walkCost_cons (s t : State) (l : List State) :
    walkCost s (t :: l) = stepCost s t + walkCost t l := rfl

theorem isWalk_nil (m : Maze) (s : State) : IsWalk m s [] := List.Chain.nil

theorem isWalk_cons (m : Maze) (s t : State) (l : List State) :
    IsWalk m s (t :: l) ↔ edgeStep m s t ∧ IsWalk m t l := List.chain_cons

theorem stepCost_pos (s t : State) : 1 ≤ stepCost s t := by
  unfold stepCost
  split <;> omega

theorem walkCost_pos (s t : State) (l : List State) : 1 ≤ walkCost s (t :: l) := by
  have := stepCost_pos s t
  simp only [walkCost_cons]
  omega

theorem walkEnd_append_single (s u : State) (l : List State) :
    walkEnd s (l ++ [u]) = u := by
  induction l generalizing s with
  | nil => rfl
  | cons a l ih => simpa using ih a

theorem walkCost_append_single (s u : State) (l : List State) :
    walkCost s (l ++ [u]) = walkCost s l + stepCost (walkEnd s l) u := by
  induction l generalizing s with
  | nil => simp
  | cons a l ih =>
    simp only [List.cons_append, walkCost_cons, walkEnd_cons, ih a]
    omega

theorem isWalk_append_single (m : Maze) (s u : State) (l : List State)
    (hw : IsWalk m s l) (he : edgeStep m (walkEnd s l) u) : IsWalk m s (l ++ [u]) := by
  induction l generalizing s with
  | nil => exact (isWalk_cons m s u []).mpr ⟨he, isWalk_nil m u⟩
  | cons a l ih =>
    rcases (isWalk_cons m s a l).mp hw with ⟨hsa, hw'⟩
    rw [walkEnd_cons] at he
    exact (isWalk_cons m s a (l ++ [u])).mpr ⟨hsa, ih a hw' he⟩

theorem walkPositions_append_single (s u : State) (l : List State) :
    walkPositions s (l ++ [u]) = insert u.pos (walkPositions s l) := by
  unfold walkPositions
  induction l generalizing s with
  | nil => exact Finset.pair_comm s.pos u.pos
  | cons a l ih =>
    simp only [List.cons_append, List.map_cons, List.toFinset_cons]
    rw [ih a, Finset.Insert.comm]

theorem reaches_start (m : Maze) : Reaches m (State.start_state m) 0 :=
  ⟨[], isWalk_nil m _, rfl, rfl⟩

theorem Reaches.extend {m : Maze} {t : State} {c : Nat} (h : Reaches m t c) {u : State}
    (he : edgeStep m t u) : Reaches m u (c + stepCost t u) := by
  rcases h with ⟨l, hw, hend, hcost⟩
  exact ⟨l ++ [u], isWalk_append_single m _ u l hw (hend ▸ he),
    walkEnd_append_single _ u l, by rw [walkCost_append_single, hcost, hend]⟩

/-! ### C6: compound successors -/

theorem step_in_direction_ne (c : Coord) (d : Direction) : c.step_in_direction d ≠ c := by
  intro h
  cases d with
  | Up =>
    have := congrArg Coord.y h
    simp [Coord.step_in_direction, Direction.to_dx_dy, Coord.step] at this
  | Down =>
    have := congrArg Coord.y h
    simp [Coord.step_in_direction, Direction.to_dx_dy, Coord.step] at this
  | Left =>
    have := congrArg Coord.x h
    simp [Coord.step_in_direction, Direction.to_dx_dy, Coord.step] at this
  | Right =>
    have := congrArg Coord.x h
    simp [Coord.step_in_direction, Direction.to_dx_dy, Coord.step] at this

theorem successors_pos_ne (s : State) : ∀ t ∈ successors s, t.pos ≠ s.pos := by
  intro t ht
  simp only [successors, List.mem_cons, List.not_mem_nil, or_false] at ht
  rcases ht with h | h | h <;> subst h
  · exact step_in_direction_ne s.pos s.dir
  · exact step_in_direction_ne s.pos s.dir.turn_left
  · exact step_in_direction_ne s.pos s.dir.turn_right

/-- C6: every expansion of a day-16 search state offers exactly the three
compound successors (step at cost 1, turn-left-then-step at cost 1001,
turn-right-then-step at cost 1001), every state pushed by an expansion of the
single-answer loop is one of these three compound successors, and none of
them is a pure rotation (each changes the position, so no turn-without-move
state ever enters the frontier). -/
theorem expansion_offers_three_compound_successors (s : State) :
    successors s = [s.step, s.turn_left.step, s.turn_right.step] ∧
    (successors s).length = 3 ∧
    stepCost s s.step = 1 ∧
    stepCost s s.turn_left.step = 1001 ∧
    stepCost s s.turn_right.step = 1001 ∧
    (∀ t ∈ successors s, t.pos ≠ s.pos) ∧
    (∀ (m : Maze) (q : List PqState) (v : List State) (e : PqState) (rest : List PqState)
      (queue' : List PqState) (visited' : List State),
      popMinBy PqState.score_so_far q = some (e, rest) →
      flsStep m q v = .next queue' visited' →
      ∀ x ∈ queue', x ∈ rest ∨
        (x.state ∈ successors e.state ∧ x.score_so_far = e.score_so_far + stepCost e.state x.state ∧
          x.state.pos ≠ e.state.pos)) := by
  refine ⟨rfl, rfl, ?_, ?_, ?_, successors_pos_ne s, ?_⟩
  · simp [stepCost, State.step]
  · have : (s.turn_left.step).dir ≠ s.dir := by
      cases h : s.dir <;> simp [State.turn_left, State.step, Direction.turn_left, h]
    simp [stepCost, this]
  · have : (s.turn_right.step).dir ≠ s.dir := by
      cases h : s.dir <;> simp [State.turn_right, State.step, Direction.turn_right, h]
    simp [stepCost, this]
  · intro m q v e rest queue' visited' hpop hstep x hx
    unfold flsStep at hstep
    rw [hpop] at hstep
    by_cases hgoal : e.state.pos = m.end_
    · simp [hgoal] at hstep
    by_cases hvis : e.state ∈ v
    · simp [hgoal, hvis] at hstep
      rw [← hstep.1] at hx
      exact Or.inl hx
    · simp only [hgoal, hvis, if_false, if_neg hgoal] at hstep
      simp only [FlsStepRes.next.injEq] at hstep
      rw [← hstep.1] at hx
      rcases List.mem_append.mp hx with hr | hp
      · exact Or.inl hr
      · have hp' : ∃ t ∈ successors e.state, t.pos ∉ m.walls ∧ (¬t = e.state ∧ t ∉ v) ∧
            (⟨e.score_so_far + stepCost e.state t, t⟩ : PqState) = x := by
          simpa [flsPushes] using hp
        obtain ⟨t, ht, -, -, hxe⟩ := hp'
        subst hxe
        exact Or.inr ⟨ht, rfl, successors_pos_ne e.state t ht⟩

/-! ### C7: the frontier pops a minimal-score entry -/

/-- C7: the cost-ordered frontier (whose `Ord` reverses the comparison on
`score_so_far`) never yields a higher-cost entry while a lower-cost one
remains: each pop returns an entry of the queue whose `score_so_far` is less
than or equal to the `score_so_far` of every entry left in the queue. -/
theorem frontier_pop_is_minimal (q : List PqState) (e : PqState) (rest : List PqState)
    (h : popMinBy PqState.score_so_far q = some (e, rest)) :
    e ∈ q ∧ ∀ x ∈ rest, e.score_so_far ≤ x.score_so_far := by
  refine ⟨popMinBy_mem h, fun x hx => ?_⟩
  exact popMinBy_min h x (popMinBy_rest_subset h x hx)

/-- Witness for C7 at a concrete queue. -/
theorem frontier_pop_is_minimal_witness :
    (⟨3, ⟨⟨0,0⟩, .Up⟩⟩ : PqState) ∈ [(⟨3, ⟨⟨0,0⟩, .Up⟩⟩ : PqState), ⟨1, ⟨⟨1,0⟩, .Up⟩⟩] ∧
    ∀ x ∈ [(⟨3, ⟨⟨0,0⟩, .Up⟩⟩ : PqState)], (1 : Nat) ≤ x.score_so_far := by
  have h := frontier_pop_is_minimal [⟨3, ⟨⟨0,0⟩, .Up⟩⟩, ⟨1, ⟨⟨1,0⟩, .Up⟩⟩]
    ⟨1, ⟨⟨1,0⟩, .Up⟩⟩ [⟨3, ⟨⟨0,0⟩, .Up⟩⟩] (by decide)
  exact ⟨by decide, h.2⟩

/-- Witness for C6: a concrete expansion of the start state of an open maze
pushes exactly the three compound successors, none a pure rotation. -/
theorem expansion_offers_three_compound_successors_witness :
    stepCost ⟨⟨0,0⟩, .Right⟩ (State.step ⟨⟨0,0⟩, .Right⟩) = 1 ∧
    ∀ x ∈ ([⟨1, ⟨⟨1,0⟩, .Right⟩⟩, ⟨1001, ⟨⟨0,1⟩, .Up⟩⟩, ⟨1001, ⟨⟨0,-1⟩, .Down⟩⟩] : List PqState),
      x ∈ ([] : List PqState) ∨
        (x.state ∈ successors ⟨⟨0,0⟩, .Right⟩ ∧
          x.score_so_far = (0 : Nat) + stepCost ⟨⟨0,0⟩, .Right⟩ x.state ∧
          x.state.pos ≠ (⟨0,0⟩ : Coord)) := by
  have h := expansion_offers_three_compound_successors ⟨⟨0,0⟩, .Right⟩
  exact ⟨h.2.2.1,
    h.2.2.2.2.2.2 ⟨⟨0,0⟩, ⟨5,5⟩, []⟩ [⟨0, ⟨⟨0,0⟩, .Right⟩⟩] [] ⟨0, ⟨⟨0,0⟩, .Right⟩⟩ []
      [⟨1, ⟨⟨1,0⟩, .Right⟩⟩, ⟨1001, ⟨⟨0,1⟩, .Up⟩⟩, ⟨1001, ⟨⟨0,-1⟩, .Down⟩⟩]
      [⟨⟨0,0⟩, .Right⟩] (by decide) (by decide)⟩

/-! ### C10: `Dimensions::wrap` -/

/-- `Dimensions` from `lib.rs`. -/
structure Dimensions : Type where
  x : Nat
  y : Nat
deriving DecidableEq

/-- `Dimensions::in_bounds` from `lib.rs`. -/
def Dimensions.in_bounds (d : Dimensions) (c : Coord) : Bool :=
  decide (0 ≤ c.x) && decide (c.x < (d.x : Int)) && decide (0 ≤ c.y) && decide (c.y < (d.y : Int))

/-- The per-component computation of `Dimensions::wrap` (`lib.rs` lines
114–130); the same code is written out once for `x` and once for `y` in the
source. Rust's `%` agrees with `Int.emod` here because every remainder in
this code is taken of a non-negative dividend. -/
def wrapComponent (n : Nat) (a : Int) : Int :=
  if a < 0 then
    ((n : Int) - (-a) % (n : Int)) % (n : Int)
  else if a > (n : Int) then
    (a - (n : Int)) % (n : Int)
  else a

/-- `Dimensions::wrap` from `lib.rs`. -/
def Dimensions.wrap (d : Dimensions) (c : Coord) : Coord :=
  ⟨wrapComponent d.x c.x, wrapComponent d.y c.y⟩

theorem wrapComponent_bounds (n : Nat) (a : Int) (hn : 0 < n) (ha : a ≠ (n : Int)) :
    0 ≤ wrapComponent n a ∧ wrapComponent n a < (n : Int) := by
  have hn' : (0 : Int) < (n : Int) := by exact_mod_cast hn
  unfold wrapComponent
  split
  · exact ⟨Int.emod_nonneg _ (ne_of_gt hn'), Int.emod_lt_of_pos _ hn'⟩
  · split
    · exact ⟨Int.emod_nonneg _ (ne_of_gt hn'), Int.emod_lt_of_pos _ hn'⟩
    · constructor <;> omega

/-- C10 counterexample: for the positive dimensions `10 × 10`, wrapping the
coordinate `(10, 0)` (whose `x` equals the width) leaves it unchanged and out
of bounds, because the source tests `coord.x > self.x` instead of
`coord.x >= self.x`. -/
theorem wrap_out_of_bounds_at_width :
    Dimensions.wrap ⟨10, 10⟩ ⟨10, 0⟩ = ⟨10, 0⟩ ∧
    Dimensions.in_bounds ⟨10, 10⟩ (Dimensions.wrap ⟨10, 10⟩ ⟨10, 0⟩) = false ∧
    (0 : Nat) < 10 := by decide

/-- C10 (amended): for positive dimensions, `wrap` returns an in-bounds
coordinate for every input whose `x` is not exactly the width and whose `y`
is not exactly the height (at those two boundary values it returns the
coordinate unchanged and out of bounds), and it leaves every in-bounds
coordinate unchanged. -/
theorem wrap_in_bounds_amended (d : Dimensions) (c : Coord)
    (hx : 0 < d.x) (hy : 0 < d.y) (hcx : c.x ≠ (d.x : Int)) (hcy : c.y ≠ (d.y : Int)) :
    d.in_bounds (d.wrap c) = true ∧ (d.in_bounds c = true → d.wrap c = c) := by
  obtain ⟨cx, cy⟩ := c
  have h1 := wrapComponent_bounds d.x cx hx hcx
  have h2 := wrapComponent_bounds d.y cy hy hcy
  constructor
  · simp [Dimensions.in_bounds, Dimensions.wrap, h1.1, h1.2, h2.1, h2.2]
  · intro hin
    simp only [Dimensions.in_bounds, Bool.and_eq_true, decide_eq_true_eq] at hin
    obtain ⟨⟨⟨hx0, hx1⟩, hy0⟩, hy1⟩ := hin
    have ex : wrapComponent d.x cx = cx := by
      unfold wrapComponent
      rw [if_neg (by omega), if_neg (by omega)]
    have ey : wrapComponent d.y cy = cy := by
      unfold wrapComponent
      rw [if_neg (by omega), if_neg (by omega)]
    simp [Dimensions.wrap, ex, ey]

/-- Witness for C10 (amended) at the dimensions `10 × 10` and coordinate `(-2, 12)`. -/
theorem wrap_in_bounds_amended_witness :
    Dimensions.in_bounds ⟨10, 10⟩ (Dimensions.wrap ⟨10, 10⟩ ⟨-2, 12⟩) = true ∧
    (Dimensions.in_bounds ⟨10, 10⟩ ⟨-2, 12⟩ = true → Dimensions.wrap ⟨10, 10⟩ ⟨-2, 12⟩ = ⟨-2, 12⟩) :=
  wrap_in_bounds_amended ⟨10, 10⟩ ⟨-2, 12⟩ (by decide) (by decide) (by decide) (by decide)

/-! ### C8: `parse_maze` -/

theorem foldl_parse_step_fst (cells : List (Coord × Char))
    (acc : Option Coord × Option Coord × List Coord) :
    (cells.foldl parse_step acc).1.isSome = true ↔
      acc.1.isSome = true ∨ ∃ pc ∈ cells, pc.2 = 'S' := by
  induction cells generalizing acc with
  | nil => simp
  | cons a t ih =>
    rw [List.foldl_cons, ih]
    have hstep : (parse_step acc a).1.isSome = true ↔ (acc.1.isSome = true ∨ a.2 = 'S') := by
      unfold parse_step
      by_cases h1 : a.2 = 'S'
      · simp [h1]
      · by_cases h2 : a.2 = 'E' <;> by_cases h3 : a.2 = '#' <;> simp [h1, h2, h3]
    rw [hstep]
    simp only [List.mem_cons]
    constructor
    · rintro ((h | h) | ⟨pc, hpc, hS⟩)
      · exact Or.inl h
      · exact Or.inr ⟨a, Or.inl rfl, h⟩
      · exact Or.inr ⟨pc, Or.inr hpc, hS⟩
    · rintro (h | ⟨pc, hpc | hpc, hS⟩)
      · exact Or.inl (Or.inl h)
      · exact Or.inl (Or.inr (hpc ▸ hS))
      · exact Or.inr ⟨pc, hpc, hS⟩

theorem foldl_parse_step_snd (cells : List (Coord × Char))
    (acc : Option Coord × Option Coord × List Coord) :
    (cells.foldl parse_step acc).2.1.isSome = true ↔
      acc.2.1.isSome = true ∨ ∃ pc ∈ cells, pc.2 = 'E' := by
  induction cells generalizing acc with
  | nil => simp
  | cons a t ih =>
    rw [List.foldl_cons, ih]
    have hstep : (parse_step acc a).2.1.isSome = true ↔ (acc.2.1.isSome = true ∨ a.2 = 'E') := by
      unfold parse_step
      by_cases h1 : a.2 = 'S'
      · have : ¬ a.2 = 'E' := by rw [h1]; decide
        simp [h1, this]
      · by_cases h2 : a.2 = 'E' <;> by_cases h3 : a.2 = '#' <;> simp [h1, h2, h3]
    rw [hstep]
    simp only [List.mem_cons]
    constructor
    · rintro ((h | h) | ⟨pc, hpc, hE⟩)
      · exact Or.inl h
      · exact Or.inr ⟨a, Or.inl rfl, h⟩
      · exact Or.inr ⟨pc, Or.inr hpc, hE⟩
    · rintro (h | ⟨pc, hpc | hpc, hE⟩)
      · exact Or.inl (Or.inl h)
      · exact Or.inl (Or.inr (hpc ▸ hE))
      · exact Or.inr ⟨pc, hpc, hE⟩

theorem foldl_parse_step_walls (cells : List (Coord × Char))
    (acc : Option Coord × Option Coord × List Coord) (c : Coord) :
    c ∈ (cells.foldl parse_step acc).2.2 ↔
      c ∈ acc.2.2 ∨ (c, '#') ∈ cells := by
  induction cells generalizing acc with
  | nil => simp
  | cons a t ih =>
    rw [List.foldl_cons, ih]
    have hstep : c ∈ (parse_step acc a).2.2 ↔ (c ∈ acc.2.2 ∨ a = (c, '#')) := by
      obtain ⟨a1, a2⟩ := a
      unfold parse_step
      by_cases h1 : a2 = 'S'
      · rw [if_pos h1]
        subst h1
        simp [Prod.mk.injEq, show ('S' : Char) ≠ '#' by decide]
      · rw [if_neg h1]
        by_cases h2 : a2 = 'E'
        · rw [if_pos h2]
          subst h2
          simp [Prod.mk.injEq, show ('E' : Char) ≠ '#' by decide]
        · rw [if_neg h2]
          by_cases h3 : a2 = '#'
          · rw [if_pos h3]
            subst h3
            simp only [List.mem_cons, Prod.mk.injEq, and_true]
            constructor
            · rintro (h | h)
              · exact Or.inr h.symm
              · exact Or.inl h
            · rintro (h | h)
              · exact Or.inr h
              · exact Or.inl h.symm
          · rw [if_neg h3]
            have : (a1, a2) ≠ (c, '#') := by
              intro h
              simp only [Prod.mk.injEq] at h
              exact h3 h.2
            simp [this]
    rw [hstep]
    simp only [List.mem_cons]
    constructor
    · rintro ((h | h) | h)
      · exact Or.inl h
      · exact Or.inr (Or.inl h.symm)
      · exact Or.inr (Or.inr h)
    · rintro (h | h | h)
      · exact Or.inl (Or.inl h)
      · exact Or.inl (Or.inr h.symm)
      · exact Or.inr h

/-- C8 counterexample: an input whose rows have inconsistent lengths (2 and
1) but which contains an `'S'` and an `'E'` is parsed successfully —
`parse_maze` performs no row-length check at all. -/
theorem parse_maze_accepts_ragged_rows :
    (parse_maze [['S','E'], ['#']]).isSome = true ∧
    List.map List.length [['S','E'], ['#']] = [2, 1] := by decide

/-- C8 (amended): `parse_maze` fails exactly when the input contains no
`'S'` cell or no `'E'` cell; row lengths are never checked (ragged inputs
are accepted).  Whenever it succeeds, the wall set of the returned maze is
exactly the set of `'#'` cells (with `(0,0)` the bottom-left corner). -/
theorem parse_maze_characterization (input : List (List Char)) :
    (parse_maze input = none ↔
      (¬ ∃ pc ∈ parseCells input, pc.2 = 'S') ∨ (¬ ∃ pc ∈ parseCells input, pc.2 = 'E')) ∧
    (∀ mz, parse_maze input = some mz → ∀ c, c ∈ mz.walls ↔ (c, '#') ∈ parseCells input) := by
  have hS := foldl_parse_step_fst (parseCells input) (none, none, [])
  have hE := foldl_parse_step_snd (parseCells input) (none, none, [])
  constructor
  · unfold parse_maze
    rcases hf : (parseCells input).foldl parse_step (none, none, []) with ⟨s, e, w⟩
    rw [hf] at hS hE
    simp only at hS hE
    cases s <;> cases e <;> simp_all
  · intro mz hmz c
    unfold parse_maze at hmz
    rcases hf : (parseCells input).foldl parse_step (none, none, []) with ⟨s, e, w⟩
    rw [hf] at hmz
    cases s <;> cases e <;> simp only at hmz
    · exact absurd hmz (by simp)
    · exact absurd hmz (by simp)
    · exact absurd hmz (by simp)
    · have hw := foldl_parse_step_walls (parseCells input) (none, none, []) c
      rw [hf] at hw
      simp only [List.not_mem_nil, false_or] at hw
      have : mz.walls = w := by
        cases mz
        simp only [Option.some.injEq, Maze.mk.injEq] at hmz
        simp [hmz]
      rw [this]
      exact hw

/-- Witness for C8 (amended) at a concrete ragged input. -/
theorem parse_maze_characterization_witness :
    (⟨0, 0⟩ : Coord) ∈ (Maze.walls ⟨⟨0,1⟩, ⟨1,1⟩, [⟨0,0⟩]⟩) ↔
      ((⟨0, 0⟩ : Coord), '#') ∈ parseCells [['S','E'], ['#']] :=
  (parse_maze_characterization [['S','E'], ['#']]).2 ⟨⟨0,1⟩, ⟨1,1⟩, [⟨0,0⟩]⟩ (by decide) ⟨0, 0⟩

/-! ### Invariant of the single-answer search loop -/

theorem mem_flsPushes {m : Maze} {e : PqState} {v' : List State} {x : PqState} :
    x ∈ flsPushes m e v' ↔
      edgeStep m e.state x.state ∧ x.state ∉ v' ∧
        x.score_so_far = e.score_so_far + stepCost e.state x.state := by
  unfold flsPushes edgeStep
  rw [List.mem_filterMap]
  constructor
  · rintro ⟨t, ht, hsome⟩
    by_cases hw : t.pos ∈ m.walls
    · simp [hw] at hsome
    by_cases hv : t ∈ v'
    · simp [hw, hv] at hsome
    · rw [if_neg hw, if_neg hv] at hsome
      have hx : x = ⟨e.score_so_far + stepCost e.state t, t⟩ := by
        simpa using hsome.symm
      subst hx
      exact ⟨⟨ht, hw⟩, hv, rfl⟩
  · rintro ⟨⟨hsucc, hw⟩, hv, hscore⟩
    refine ⟨x.state, hsucc, ?_⟩
    rw [if_neg hw, if_neg hv]
    obtain ⟨sc, st⟩ := x
    simp only at hscore ⊢
    rw [hscore]

theorem flsStep_empty {m : Maze} {q : List PqState} {v : List State}
    (h : popMinBy PqState.score_so_far q = none) : flsStep m q v = .done none := by
  unfold flsStep
  rw [h]

theorem flsStep_goal {m : Maze} {q : List PqState} {v : List State} {e : PqState}
    {rest : List PqState} (h : popMinBy PqState.score_so_far q = some (e, rest))
    (hg : e.state.pos = m.end_) : flsStep m q v = .done (some e.score_so_far) := by
  simp [flsStep, h, hg]

theorem flsStep_skip {m : Maze} {q : List PqState} {v : List State} {e : PqState}
    {rest : List PqState} (h : popMinBy PqState.score_so_far q = some (e, rest))
    (hg : ¬ e.state.pos = m.end_) (hv : e.state ∈ v) : flsStep m q v = .next rest v := by
  simp [flsStep, h, hg, hv]

theorem flsStep_expand {m : Maze} {q : List PqState} {v : List State} {e : PqState}
    {rest : List PqState} (h : popMinBy PqState.score_so_far q = some (e, rest))
    (hg : ¬ e.state.pos = m.end_) (hv : e.state ∉ v) :
    flsStep m q v = .next (rest ++ flsPushes m e (e.state :: v)) (e.state :: v) := by
  simp [flsStep, h, hg, hv]

theorem find_lowest_score_aux_succ (m : Maze) (fuel : Nat) (q : List PqState) (v : List State) :
    find_lowest_score_aux m (fuel + 1) q v =
      match flsStep m q v with
      | .done r => some r
      | .next q' v' => find_lowest_score_aux m fuel q' v' := rfl

/-- The loop invariant of `find_lowest_score`, in the state just before a
loop iteration with frontier `q` and visited set `v`:
* `sound`: every frontier entry records the exact cost of a real walk;
* `vnotgoal`: a state on the end cell is never marked visited (the loop
  returns before the visited-insert);
* `vnodup`: the visited list never repeats a state (it models a `HashSet`);
* `hstart`: the start state is visited or still queued at cost 0;
* `relax`: every visited state has been expanded at its minimal reachable
  cost and each of its outgoing transitions leads to a visited state or to a
  queued entry at no more than that minimal cost plus the edge cost. -/
structure Inv1 (m : Maze) (q : List PqState) (v : List State) : Prop where
  sound : ∀ e ∈ q, Reaches m e.state e.score_so_far
  vnotgoal : ∀ s ∈ v, s.pos ≠ m.end_
  vnodup : v.Nodup
  hstart : State.start_state m ∈ v ∨
    ∃ e ∈ q, e.state = State.start_state m ∧ e.score_so_far = 0
  relax : ∀ s ∈ v, ∃ d, Reaches m s d ∧ (∀ c, Reaches m s c → d ≤ c) ∧
    ∀ t, edgeStep m s t →
      t ∈ v ∨ ∃ e ∈ q, e.state = t ∧ e.score_so_far ≤ d + stepCost s t

theorem inv1_init (m : Maze) : Inv1 m [⟨0, State.start_state m⟩] [] := by
  refine ⟨?_, by simp, List.nodup_nil, ?_, by simp⟩
  · intro e he
    simp only [List.mem_singleton] at he
    subst he
    exact reaches_start m
  · exact Or.inr ⟨⟨0, State.start_state m⟩, List.mem_singleton_self _, rfl, rfl⟩

/-- Core frontier lemma, inner induction: a walk that starts at a visited
state and ends outside the visited set passes some queued entry whose score
is at most any reachable cost of the walk's start plus the walk's cost. -/
theorem inv1_walk_bound_aux {m : Maze} {q : List PqState} {v : List State}
    (hInv : Inv1 m q v) :
    ∀ (l : List State) (u : State), u ∈ v → IsWalk m u l → walkEnd u l ∉ v →
      ∃ e ∈ q, ∀ du, Reaches m u du → e.score_so_far ≤ du + walkCost u l := by
  intro l
  induction l with
  | nil =>
    intro u hu _ hend
    exact absurd hu (by simpa using hend)
  | cons t l ih =>
    intro u hu hwalk hend
    rcases (isWalk_cons m u t l).mp hwalk with ⟨hut, hwl⟩
    rw [walkEnd_cons] at hend
    by_cases htv : t ∈ v
    · obtain ⟨e, he, hbound⟩ := ih t htv hwl hend
      refine ⟨e, he, fun du hdu => ?_⟩
      have h2 := hbound _ (hdu.extend hut)
      rw [walkCost_cons]
      omega
    · obtain ⟨d, hr, hmin, hrelax⟩ := hInv.relax u hu
      rcases hrelax t hut with h | ⟨e, he, hst, hb⟩
      · exact absurd h htv
      · refine ⟨e, he, fun du hdu => ?_⟩
        have h1 : d ≤ du := hmin du hdu
        rw [walkCost_cons]
        omega

/-- Core frontier lemma: any walk from the start state that ends outside the
visited set is covered by a queued entry of score at most the walk's cost. -/
theorem inv1_walk_bound {m : Maze} {q : List PqState} {v : List State}
    (hInv : Inv1 m q v) (l : List State) (hw : IsWalk m (State.start_state m) l)
    (hend : walkEnd (State.start_state m) l ∉ v) :
    ∃ e ∈ q, e.score_so_far ≤ walkCost (State.start_state m) l := by
  by_cases hs : State.start_state m ∈ v
  · obtain ⟨e, he, hbound⟩ := inv1_walk_bound_aux hInv l (State.start_state m) hs hw hend
    exact ⟨e, he, by simpa using hbound 0 (reaches_start m)⟩
  · rcases hInv.hstart with h | ⟨e, he, hst, hsc⟩
    · exact absurd h hs
    · exact ⟨e, he, by rw [hsc]; omega⟩

/-- A popped entry whose state is not yet visited carries the minimal
reachable cost of that state. -/
theorem popped_min_cost {m : Maze} {q : List PqState} {v : List State}
    {e : PqState} {rest : List PqState} (hInv : Inv1 m q v)
    (hpop : popMinBy PqState.score_so_far q = some (e, rest)) (hnv : e.state ∉ v) :
    ∀ c, Reaches m e.state c → e.score_so_far ≤ c := by
  rintro c ⟨l, hw, hend, hcost⟩
  obtain ⟨e', he', hb⟩ := inv1_walk_bound hInv l hw (hend ▸ hnv)
  have hm := popMinBy_min hpop e' he'
  omega

/-- A popped entry on the end cell carries the least goal cost. -/
theorem popped_goal_least {m : Maze} {q : List PqState} {v : List State}
    {e : PqState} {rest : List PqState} (hInv : Inv1 m q v)
    (hpop : popMinBy PqState.score_so_far q = some (e, rest)) (hg : e.state.pos = m.end_) :
    IsLeast {c | GoalCost m c} e.score_so_far := by
  constructor
  · exact ⟨e.state, hInv.sound e (popMinBy_mem hpop), hg⟩
  · rintro c ⟨t, ⟨l, hw, hend, hcost⟩, htpos⟩
    have hnv : walkEnd (State.start_state m) l ∉ v := fun hmem =>
      hInv.vnotgoal _ hmem (hend ▸ htpos)
    obtain ⟨e', he', hb⟩ := inv1_walk_bound hInv l hw hnv
    have hm := popMinBy_min hpop e' he'
    omega

theorem inv1_preserved_skip {m : Maze} {q : List PqState} {v : List State}
    {e : PqState} {rest : List PqState} (hInv : Inv1 m q v)
    (hpop : popMinBy PqState.score_so_far q = some (e, rest)) (hv : e.state ∈ v) :
    Inv1 m rest v := by
  refine ⟨fun x hx => hInv.sound x (popMinBy_rest_subset hpop x hx),
    hInv.vnotgoal, hInv.vnodup, ?_, ?_⟩
  · rcases hInv.hstart with h | ⟨e', he', hst, hsc⟩
    · exact Or.inl h
    · rcases popMinBy_mem_split hpop e' he' with heq | hr
      · exact Or.inl (by rw [← hst, heq]; exact hv)
      · exact Or.inr ⟨e', hr, hst, hsc⟩
  · intro s hs
    obtain ⟨d, hr, hmin, hrelax⟩ := hInv.relax s hs
    refine ⟨d, hr, hmin, fun t ht => ?_⟩
    rcases hrelax t ht with h | ⟨e', he', hst, hb⟩
    · exact Or.inl h
    · rcases popMinBy_mem_split hpop e' he' with heq | hr'
      · exact Or.inl (by rw [← hst, heq]; exact hv)
      · exact Or.inr ⟨e', hr', hst, hb⟩

theorem inv1_preserved_expand {m : Maze} {q : List PqState} {v : List State}
    {e : PqState} {rest : List PqState} (hInv : Inv1 m q v)
    (hpop : popMinBy PqState.score_so_far q = some (e, rest))
    (hg : e.state.pos ≠ m.end_) (hnv : e.state ∉ v) :
    Inv1 m (rest ++ flsPushes m e (e.state :: v)) (e.state :: v) := by
  have hsound := hInv.sound e (popMinBy_mem hpop)
  refine ⟨?_, ?_, List.nodup_cons.mpr ⟨hnv, hInv.vnodup⟩, ?_, ?_⟩
  · intro x hx
    rcases List.mem_append.mp hx with hr | hp
    · exact hInv.sound x (popMinBy_rest_subset hpop x hr)
    · obtain ⟨hedge, -, hscore⟩ := mem_flsPushes.mp hp
      rw [hscore]
      exact hsound.extend hedge
  · intro s hs
    rcases List.mem_cons.mp hs with h | h
    · exact h ▸ hg
    · exact hInv.vnotgoal s h
  · rcases hInv.hstart with h | ⟨e', he', hst, hsc⟩
    · exact Or.inl (List.mem_cons_of_mem _ h)
    · rcases popMinBy_mem_split hpop e' he' with heq | hr
      · exact Or.inl (by rw [← hst, heq]; exact List.mem_cons_self _ _)
      · exact Or.inr ⟨e', List.mem_append_left _ hr, hst, hsc⟩
  · intro s hs
    rcases List.mem_cons.mp hs with h | h
    · subst h
      refine ⟨e.score_so_far, hsound, popped_min_cost hInv hpop hnv, fun t ht => ?_⟩
      by_cases htv : t ∈ e.state :: v
      · exact Or.inl htv
      · exact Or.inr ⟨⟨e.score_so_far + stepCost e.state t, t⟩,
          List.mem_append_right _ (mem_flsPushes.mpr ⟨ht, htv, rfl⟩), rfl, le_refl _⟩
    · obtain ⟨d, hr, hmin, hrelax⟩ := hInv.relax s h
      refine ⟨d, hr, hmin, fun t ht => ?_⟩
      rcases hrelax t ht with h' | ⟨e', he', hst, hb⟩
      · exact Or.inl (List.mem_cons_of_mem _ h')
      · rcases popMinBy_mem_split hpop e' he' with heq | hr'
        · exact Or.inl (by rw [← hst, heq]; exact List.mem_cons_self _ _)
        · exact Or.inr ⟨e', List.mem_append_left _ hr', hst, hb⟩

/-! ### Partial correctness of the single-answer search -/

/-- Any terminating run of the `find_lowest_score` loop from an invariant
state returns the least goal cost (when it returns a score) and certifies
unreachability (when it returns `None`). -/
theorem fls_aux_correct (m : Maze) :
    ∀ (fuel : Nat) (q : List PqState) (v : List State), Inv1 m q v →
      ∀ r, find_lowest_score_aux m fuel q v = some r →
        (∀ val, r = some val → IsLeast {c | GoalCost m c} val) ∧
        (r = none → ∀ c, ¬ GoalCost m c) := by
  intro fuel
  induction fuel with
  | zero =>
    intro q v _ r hr
    simp [find_lowest_score_aux] at hr
  | succ fuel ih =>
    intro q v hInv r hr
    rw [find_lowest_score_aux_succ] at hr
    rcases hpop : popMinBy PqState.score_so_far q with _ | ⟨e, rest⟩
    · rw [flsStep_empty hpop] at hr
      have hre : r = none := by simpa using hr.symm
      subst hre
      refine ⟨by simp, fun _ c hGC => ?_⟩
      rcases hGC with ⟨t, ⟨l, hw, hend, hcost⟩, ht⟩
      have hnv : walkEnd (State.start_state m) l ∉ v := fun hmem =>
        hInv.vnotgoal _ hmem (hend ▸ ht)
      obtain ⟨e', he', -⟩ := inv1_walk_bound hInv l hw hnv
      rw [(popMinBy_eq_none _ q).mp hpop] at he'
      simp at he'
    · by_cases hg : e.state.pos = m.end_
      · rw [flsStep_goal hpop hg] at hr
        have hre : r = some e.score_so_far := by simpa using hr.symm
        subst hre
        refine ⟨fun val hval => ?_, by simp⟩
        injection hval with hh
        subst hh
        exact popped_goal_least hInv hpop hg
      · by_cases hv : e.state ∈ v
        · rw [flsStep_skip hpop hg hv] at hr
          exact ih rest v (inv1_preserved_skip hInv hpop hv) r hr
        · rw [flsStep_expand hpop hg hv] at hr
          exact ih _ _ (inv1_preserved_expand hInv hpop hg hv) r hr

/-! ### Termination of the single-answer search -/

/-- The termination measure of the `find_lowest_score` loop: the frontier
length plus four tokens for every state of the bounding set `B` not yet
visited (an expansion consumes one unvisited state and pushes at most three
entries; a skip or return consumes a frontier entry). -/
def flsMeasure (B : Finset State) (q : List PqState) (v : List State) : Nat :=
  q.length + 4 * (B.card - v.length)

theorem nodup_subset_card {v : List State} {B : Finset State} (hnd : v.Nodup)
    (hsub : ∀ s ∈ v, s ∈ B) : v.length ≤ B.card := by
  have h1 : v.toFinset ⊆ B := fun x hx => hsub x (List.mem_toFinset.mp hx)
  have h2 := Finset.card_le_card h1
  rwa [List.toFinset_card_of_nodup hnd] at h2

/-- The `find_lowest_score` loop terminates from any invariant state whose
expandable states all lie in a finite bounding set `B`. -/
theorem fls_terminates (m : Maze) (B : Finset State)
    (hB : ∀ (q : List PqState) (v : List State) (e : PqState) (rest : List PqState),
      Inv1 m q v → popMinBy PqState.score_so_far q = some (e, rest) →
      e.state ∉ v → e.state.pos ≠ m.end_ → e.state ∈ B) :
    ∀ (k : Nat) (q : List PqState) (v : List State), Inv1 m q v → (∀ s ∈ v, s ∈ B) →
      flsMeasure B q v ≤ k → ∃ fuel r, find_lowest_score_aux m fuel q v = some r := by
  intro k
  induction k with
  | zero =>
    intro q v hInv hsub hk
    have hq : q = [] := by
      unfold flsMeasure at hk
      exact List.length_eq_zero.mp (by omega)
    subst hq
    exact ⟨1, none, by
      rw [find_lowest_score_aux_succ,
        flsStep_empty (show popMinBy PqState.score_so_far ([] : List PqState) = none from rfl)]⟩
  | succ k ih =>
    intro q v hInv hsub hk
    rcases hpop : popMinBy PqState.score_so_far q with _ | ⟨e, rest⟩
    · exact ⟨1, none, by rw [find_lowest_score_aux_succ, flsStep_empty hpop]⟩
    · have hlen := popMinBy_length hpop
      by_cases hg : e.state.pos = m.end_
      · exact ⟨1, some e.score_so_far, by
          rw [find_lowest_score_aux_succ, flsStep_goal hpop hg]⟩
      by_cases hv : e.state ∈ v
      · have hk' : flsMeasure B rest v ≤ k := by
          unfold flsMeasure at hk ⊢
          omega
        obtain ⟨fuel, r, hr⟩ := ih rest v (inv1_preserved_skip hInv hpop hv) hsub hk'
        exact ⟨fuel + 1, r, by
          rw [find_lowest_score_aux_succ, flsStep_skip hpop hg hv]
          exact hr⟩
      · have hInv' := inv1_preserved_expand hInv hpop hg hv
        have hsub' : ∀ s ∈ e.state :: v, s ∈ B := by
          intro s hs
          rcases List.mem_cons.mp hs with h | h
          · exact h ▸ hB q v e rest hInv hpop hv hg
          · exact hsub s h
        have hcard : v.length + 1 ≤ B.card := by
          have := nodup_subset_card hInv'.vnodup hsub'
          simpa using this
        have hpl : (flsPushes m e (e.state :: v)).length ≤ 3 := by
          unfold flsPushes
          exact le_trans (List.length_filterMap_le _ _) (by simp [successors])
        have hk' : flsMeasure B (rest ++ flsPushes m e (e.state :: v)) (e.state :: v) ≤ k := by
          unfold flsMeasure at hk ⊢
          rw [List.length_append, List.length_cons]
          omega
        obtain ⟨fuel, r, hr⟩ := ih _ _ hInv' hsub' hk'
        exact ⟨fuel + 1, r, by
          rw [find_lowest_score_aux_succ, flsStep_expand hpop hg hv]
          exact hr⟩

/-! ### A finite bounding set for reachable-goal mazes -/

theorem edge_pos_bound {m : Maze} {s t : State} (h : edgeStep m s t) :
    t.pos.x - s.pos.x ≤ 1 ∧ s.pos.x - t.pos.x ≤ 1 ∧
    t.pos.y - s.pos.y ≤ 1 ∧ s.pos.y - t.pos.y ≤ 1 := by
  rcases h with ⟨hsucc, -⟩
  have key : ∀ d : Direction, (s.pos.step_in_direction d).x - s.pos.x ≤ 1 ∧
      s.pos.x - (s.pos.step_in_direction d).x ≤ 1 ∧
      (s.pos.step_in_direction d).y - s.pos.y ≤ 1 ∧
      s.pos.y - (s.pos.step_in_direction d).y ≤ 1 := by
    intro d
    cases d <;> simp [Coord.step_in_direction, Direction.to_dx_dy, Coord.step]
  simp only [successors, List.mem_cons, List.not_mem_nil, or_false] at hsucc
  rcases hsucc with h | h | h <;> subst h
  · exact key s.dir
  · exact key s.dir.turn_left
  · exact key s.dir.turn_right

theorem walk_box {m : Maze} : ∀ (l : List State) (u : State), IsWalk m u l →
    (walkEnd u l).pos.x - u.pos.x ≤ (walkCost u l : Int) ∧
    u.pos.x - (walkEnd u l).pos.x ≤ (walkCost u l : Int) ∧
    (walkEnd u l).pos.y - u.pos.y ≤ (walkCost u l : Int) ∧
    u.pos.y - (walkEnd u l).pos.y ≤ (walkCost u l : Int) := by
  intro l
  induction l with
  | nil =>
    intro u _
    simp
  | cons t l ih =>
    intro u hw
    rcases (isWalk_cons m u t l).mp hw with ⟨hut, hwl⟩
    have h1 := ih t hwl
    have h2 := edge_pos_bound hut
    have h3 := stepCost_pos u t
    rw [walkEnd_cons, walkCost_cons]
    push_cast
    omega

/-- All four directions. -/
def directionFinset : Finset Direction :=
  {Direction.Up, Direction.Down, Direction.Left, Direction.Right}

/-- The finite set of states whose position lies within Chebyshev distance
`c` of the maze start. Every state reachable at cost at most `c` lies in it,
because each transition moves exactly one cell and costs at least 1. -/
def ballStates (m : Maze) (c : Nat) : Finset State :=
  ((Finset.Icc (m.start.x - (c : Int)) (m.start.x + (c : Int)) ×ˢ
    Finset.Icc (m.start.y - (c : Int)) (m.start.y + (c : Int))) ×ˢ directionFinset).image
    fun p => ⟨⟨p.1.1, p.1.2⟩, p.2⟩

theorem reaches_mem_ball {m : Maze} {s : State} {d c : Nat}
    (h : Reaches m s d) (hd : d ≤ c) : s ∈ ballStates m c := by
  rcases h with ⟨l, hw, hend, hcost⟩
  have hb := walk_box l (State.start_state m) hw
  rw [hend, hcost] at hb
  have hstart : (State.start_state m).pos = m.start := rfl
  rw [hstart] at hb
  have hdc : (d : Int) ≤ (c : Int) := by exact_mod_cast hd
  refine Finset.mem_image.mpr ⟨((s.pos.x, s.pos.y), s.dir), ?_, rfl⟩
  simp only [Finset.mem_product, Finset.mem_Icc]
  refine ⟨⟨⟨by omega, by omega⟩, ⟨by omega, by omega⟩⟩, ?_⟩
  cases s.dir <;> simp [directionFinset]

/-! ### C1: `find_lowest_score` returns the minimal goal cost -/

/-- C1: whenever some state on the end cell is reachable from the start
state through wall-avoiding transitions, the single-answer search terminates
and returns `Some best` where `best` is the least total cost over all such
transition sequences (the first goal state popped from the cost-ordered
frontier carries this minimal cost and is returned immediately). -/
theorem find_lowest_score_finds_minimum (m : Maze) (c : Nat) (h : GoalCost m c) :
    ∃ fuel best, find_lowest_score fuel m = some (some best) ∧
      IsLeast {x | GoalCost m x} best := by
  have hB : ∀ (q : List PqState) (v : List State) (e : PqState) (rest : List PqState),
      Inv1 m q v → popMinBy PqState.score_so_far q = some (e, rest) →
      e.state ∉ v → e.state.pos ≠ m.end_ → e.state ∈ ballStates m c := by
    intro q v e rest hInv hpop hnv hng
    rcases h with ⟨t, ⟨l, hw, hend, hcost⟩, ht⟩
    have hnvg : walkEnd (State.start_state m) l ∉ v := fun hmem =>
      hInv.vnotgoal _ hmem (hend ▸ ht)
    obtain ⟨e', he', hb⟩ := inv1_walk_bound hInv l hw hnvg
    have hm := popMinBy_min hpop e' he'
    exact reaches_mem_ball (hInv.sound e (popMinBy_mem hpop)) (by omega)
  obtain ⟨fuel, r, hr⟩ := fls_terminates m (ballStates m c) hB
    (flsMeasure (ballStates m c) [⟨0, State.start_state m⟩] []) _ _
    (inv1_init m) (by simp) le_rfl
  have hcor := fls_aux_correct m fuel _ _ (inv1_init m) r hr
  rcases r with _ | val
  · exact absurd h (hcor.2 rfl c)
  · exact ⟨fuel, val, hr, hcor.1 val rfl⟩

/-- Witness for C1 at a concrete one-step maze. -/
theorem find_lowest_score_finds_minimum_witness :
    ∃ fuel best, find_lowest_score fuel ⟨⟨0,0⟩, ⟨1,0⟩, []⟩ = some (some best) ∧
      IsLeast {x | GoalCost ⟨⟨0,0⟩, ⟨1,0⟩, []⟩ x} best :=
  find_lowest_score_finds_minimum ⟨⟨0,0⟩, ⟨1,0⟩, []⟩ 1
    ⟨⟨⟨1,0⟩, .Right⟩, ⟨[⟨⟨1,0⟩, .Right⟩], by decide, rfl, by decide⟩, rfl⟩

/-! ### C4: unreachable end — `find_lowest_score` returns `None`, `part_one` panics -/

/-- The maze parsed from the input `#####` / `#S#E#` / `#####`: the start is
fully enclosed by walls and the end is unreachable. -/
def encMaze : Maze :=
  ⟨⟨1,1⟩, ⟨3,1⟩,
   [⟨4,2⟩, ⟨3,2⟩, ⟨2,2⟩, ⟨1,2⟩, ⟨0,2⟩, ⟨4,1⟩, ⟨2,1⟩, ⟨0,1⟩,
    ⟨4,0⟩, ⟨3,0⟩, ⟨2,0⟩, ⟨1,0⟩, ⟨0,0⟩]⟩

/-- In `encMaze` every transition out of the start state hits a wall, so the
start state is the only reachable state. -/
theorem encMaze_reaches : ∀ (s : State) (c : Nat),
    Reaches encMaze s c → s = State.start_state encMaze := by
  rintro s c ⟨l, hw, hend, -⟩
  cases l with
  | nil => simpa using hend.symm
  | cons t l' =>
    exfalso
    rcases (isWalk_cons _ _ _ _).mp hw with ⟨⟨hsucc, hwall⟩, -⟩
    simp only [successors, List.mem_cons, List.not_mem_nil, or_false] at hsucc
    rcases hsucc with h | h | h <;> subst h <;> exact hwall (by decide)

/-- C4 counterexample: on the concrete enclosed maze, `find_lowest_score`
does return `None`, but its caller `part_one` `unwrap`s that `None` and
panics (modeled as `Except.error`) instead of propagating an absent result. -/
theorem part_one_panics_on_unreachable :
    find_lowest_score 2 encMaze = some none ∧
    parse_maze [['#','#','#','#','#'], ['#','S','#','E','#'], ['#','#','#','#','#']] =
      some encMaze ∧
    part_one 2 [['#','#','#','#','#'], ['#','S','#','E','#'], ['#','#','#','#','#']] =
      some (Except.error ()) := by decide

/-- C4 (amended): for every maze whose reachable state set is finite (e.g.
the walls fully enclose the start) and in which no goal state is reachable,
the search terminates and `find_lowest_score` returns the explicit `None`
signal; the caller `part_one`, however, calls `unwrap()` on that `None` and
panics instead of propagating an absent result. -/
theorem find_lowest_score_unreachable_returns_none (m : Maze) (B : Finset State)
    (hfin : ∀ (s : State) (c : Nat), Reaches m s c → s ∈ B)
    (hunreach : ∀ c, ¬ GoalCost m c) :
    ∃ fuel, find_lowest_score fuel m = some none ∧
      ∀ input, parse_maze input = some m →
        part_one fuel input = some (Except.error ()) := by
  have hB : ∀ (q : List PqState) (v : List State) (e : PqState) (rest : List PqState),
      Inv1 m q v → popMinBy PqState.score_so_far q = some (e, rest) →
      e.state ∉ v → e.state.pos ≠ m.end_ → e.state ∈ B :=
    fun q v e rest hInv hpop _ _ => hfin _ _ (hInv.sound e (popMinBy_mem hpop))
  obtain ⟨fuel, r, hr⟩ := fls_terminates m B hB
    (flsMeasure B [⟨0, State.start_state m⟩] []) _ _ (inv1_init m) (by simp) le_rfl
  have hcor := fls_aux_correct m fuel _ _ (inv1_init m) r hr
  rcases r with _ | val
  · refine ⟨fuel, hr, fun input hparse => ?_⟩
    have hfl : find_lowest_score fuel m = some none := hr
    have hstep : part_one fuel input = (find_lowest_score fuel m).map fun r =>
        match r with
        | some score => Except.ok score
        | none => Except.error () := by
      unfold part_one
      rw [hparse]
    rw [hstep, hfl]
    rfl
  · exact absurd (hcor.1 val rfl).1 (hunreach val)

/-- Witness for C4 (amended) at the concrete enclosed maze. -/
theorem find_lowest_score_unreachable_returns_none_witness :
    ∃ fuel, find_lowest_score fuel encMaze = some none ∧
      ∀ input, parse_maze input = some encMaze →
        part_one fuel input = some (Except.error ()) :=
  find_lowest_score_unreachable_returns_none encMaze {State.start_state encMaze}
    (fun s c h => by rw [encMaze_reaches s c h]; exact Finset.mem_singleton_self _)
    (fun c hc => by
      obtain ⟨t, hr, hpos⟩ := hc
      rw [encMaze_reaches t c hr] at hpos
      exact absurd hpos (by decide))

/-! ### C5: termination — day-16 terminates on finite state spaces, the
day-18 BFS loops forever on unreachable goals -/

/-- C5 (amended, day-16 part): the day-16 single-answer search terminates —
on the first goal pop or on an empty frontier — whenever its reachable state
set is finite (e.g. the walls enclose the start); the state space actually
explored is not bounded by the grid dimensions, and the day-18 BFS does not
terminate at all when its goal is unreachable. -/
theorem day16_search_terminates_on_finite_states (m : Maze) (B : Finset State)
    (hfin : ∀ (s : State) (c : Nat), Reaches m s c → s ∈ B) :
    ∃ fuel r, find_lowest_score fuel m = some r := by
  have hB : ∀ (q : List PqState) (v : List State) (e : PqState) (rest : List PqState),
      Inv1 m q v → popMinBy PqState.score_so_far q = some (e, rest) →
      e.state ∉ v → e.state.pos ≠ m.end_ → e.state ∈ B :=
    fun q v e rest hInv hpop _ _ => hfin _ _ (hInv.sound e (popMinBy_mem hpop))
  obtain ⟨fuel, r, hr⟩ := fls_terminates m B hB
    (flsMeasure B [⟨0, State.start_state m⟩] []) _ _ (inv1_init m) (by simp) le_rfl
  exact ⟨fuel, r, hr⟩

/-- Witness for C5 (amended) at the concrete enclosed maze. -/
theorem day16_search_terminates_on_finite_states_witness :
    ∃ fuel r, find_lowest_score fuel encMaze = some r :=
  day16_search_terminates_on_finite_states encMaze {State.start_state encMaze}
    (fun s c h => by rw [encMaze_reaches s c h]; exact Finset.mem_singleton_self _)

/-! Day-18 BFS (`18.rs` `part_one`): the grid is bounded, but the `loop`
has no empty-frontier exit — it returns only upon reaching the end cell. -/

/-- `Dimensions::small_corner` from `lib.rs`. -/
def Dimensions.small_corner (_d : Dimensions) : Coord := ⟨0, 0⟩

/-- `Dimensions::large_corner` from `lib.rs`. -/
def Dimensions.large_corner (d : Dimensions) : Coord := ⟨(d.x : Int) - 1, (d.y : Int) - 1⟩

/-- `Dimensions::get_neighbors` from `lib.rs`: the four cardinal steps, in
the fixed order right, left, up, down, filtered to the grid bounds. -/
def Dimensions.get_neighbors (d : Dimensions) (c : Coord) : List Coord :=
  (([(1,0), (-1,0), (0,1), (0,-1)] : List (Int × Int)).map fun p => c.step p.1 p.2).filter
    fun c' => d.in_bounds c'

/-- The day-18 BFS state (`State` in `18.rs`): position plus the set of
positions visited along this state's path. -/
structure BfsState : Type where
  pos : Coord
  visited : List Coord
deriving DecidableEq

/-- The inner neighbor loop of the day-18 BFS (`18.rs` lines 65–92):
process the neighbors of one dequeued state in order, skipping walls,
already-visited cells and cells already queued for the next layer; `none`
models the early `return Some(i)` upon reaching the end. -/
def bfsNeighbors (walls : List Coord) (endC : Coord) (visited new_visited : List Coord) :
    List Coord → List BfsState → List Coord → Option (List BfsState × List Coord)
  | [], nq, nqp => some (nq, nqp)
  | n :: ns, nq, nqp =>
    if n ∈ walls then bfsNeighbors walls endC visited new_visited ns nq nqp
    else if n ∈ visited then bfsNeighbors walls endC visited new_visited ns nq nqp
    else if n ∈ nqp then bfsNeighbors walls endC visited new_visited ns nq nqp
    else if n = endC then none
    else bfsNeighbors walls endC visited new_visited ns
      (nq ++ [⟨n, new_visited⟩]) (n :: nqp)

/-- The outer per-layer loop of the day-18 BFS (`18.rs` lines 58–93):
process every dequeued state of the current layer; `none` models the early
`return Some(i)`. -/
def bfsLayer (dims : Dimensions) (walls : List Coord) (endC : Coord) :
    List BfsState → List BfsState → List Coord → Option (List BfsState × List Coord)
  | [], nq, nqp => some (nq, nqp)
  | s :: ss, nq, nqp =>
    match bfsNeighbors walls endC s.visited (s.pos :: s.visited)
        (dims.get_neighbors s.pos) nq nqp with
    | none => none
    | some (nq', nqp') => bfsLayer dims walls endC ss nq' nqp'

/-- The `loop` of the day-18 `part_one` (`18.rs` lines 53–97), fuel-indexed:
it returns `Some i` only when a neighbor equals the end; there is no exit
for an empty frontier, so `none` (fuel exhausted) is the only other outcome. -/
def bfsLoop (dims : Dimensions) (walls : List Coord) (endC : Coord) :
    Nat → List BfsState → Nat → Option Nat
  | 0, _, _ => none
  | fuel + 1, queue, i =>
    match bfsLayer dims walls endC queue [] [] with
    | none => some i
    | some (nq, _) => bfsLoop dims walls endC fuel nq (i + 1)

/-- The BFS of `part_one` from `18.rs` on a given wall set: start at the
small corner with an empty path, search for the large corner, `i = 1`. -/
def day18_search (dims : Dimensions) (walls : List Coord) (fuel : Nat) : Option Nat :=
  bfsLoop dims walls dims.large_corner fuel [⟨dims.small_corner, []⟩] 1

/-- The day-18 BFS terminates (for some fuel the Rust `loop` returns). -/
def Day18Terminates (dims : Dimensions) (walls : List Coord) : Prop :=
  ∃ fuel n, day18_search dims walls fuel = some n

theorem bfsLoop_empty (dims : Dimensions) (walls : List Coord) (endC : Coord) :
    ∀ (fuel i : Nat), bfsLoop dims walls endC fuel [] i = none := by
  intro fuel
  induction fuel with
  | zero => intro i; rfl
  | succ fuel ih =>
    intro i
    show bfsLoop dims walls endC (fuel + 1) [] i = none
    rw [bfsLoop]
    exact ih (i + 1)

/-- C5 counterexample: on the 7×7 day-18 grid with the two walls `(1,0)` and
`(0,1)` enclosing the start corner, the goal is unreachable and the BFS
`loop` never returns — for every amount of fuel the run is still spinning
on an empty frontier (`i` keeps incrementing forever in the source). -/
theorem day18_bfs_does_not_terminate_when_unreachable :
    ¬ Day18Terminates ⟨7, 7⟩ [⟨1,0⟩, ⟨0,1⟩] := by
  rintro ⟨fuel, n, hfn⟩
  unfold day18_search at hfn
  cases fuel with
  | zero => exact absurd hfn (by simp [bfsLoop])
  | succ fuel =>
    rw [bfsLoop] at hfn
    rw [show bfsLayer ⟨7, 7⟩ [⟨1,0⟩, ⟨0,1⟩] (Dimensions.large_corner ⟨7, 7⟩)
        [⟨Dimensions.small_corner ⟨7, 7⟩, []⟩] [] [] = some ([], []) from by decide] at hfn
    have hfn2 : bfsLoop ⟨7, 7⟩ [⟨1,0⟩, ⟨0,1⟩] (Dimensions.large_corner ⟨7, 7⟩)
        fuel [] (1 + 1) = some n := hfn
    rw [bfsLoop_empty] at hfn2
    exact absurd hfn2 (by simp)

/-! ### The all-optimal-paths search (`find_lowest_score_seats`, `16.rs` lines 170–249) -/

/-- `PqState2` from `16.rs`: a frontier entry of the all-optimal-paths
search; `path` is the set of positions on the walk that produced the entry. -/
structure PqState2 : Type where
  score_so_far : Nat
  state : State
  path : Finset Coord
deriving DecidableEq

/-- The loop state of `find_lowest_score_seats`: its frontier and the three
mutable locals `best_score`, `best_seats` and `min_score_to_node`. -/
structure Loop2 : Type where
  queue : List PqState2
  best_score : Option Nat
  best_seats : Finset Coord
  min_score_to_node : List (State × Nat)
deriving DecidableEq

/-- `HashMap` lookup on an insertion list (later insertions shadow earlier
ones, mirroring `HashMap::insert` overwriting). -/
def lookupScore : List (State × Nat) → State → Option Nat
  | [], _ => none
  | (s, d) :: rest, t => if t = s then some d else lookupScore rest t

/-- The break test of `16.rs` line 196:
`best_score.is_some() && score_so_far > best_score.unwrap()`. -/
def breakCond : Option Nat → Nat → Bool
  | some b, s => decide (b < s)
  | none, _ => false

/-- The prune test of `16.rs` lines 208–209: `min_score_to_node` has an
entry for the state and that entry is strictly below the popped score. -/
def skipCond : Option Nat → Nat → Bool
  | some d, s => decide (d < s)
  | none, _ => false

/-- The entries pushed by one expansion of `find_lowest_score_seats`
(`16.rs` lines 216–245): each non-wall compound successor, at the popped
score plus the incremental cost, with the successor position added to the
path set. -/
def flsSeatsPushes (m : Maze) (e : PqState2) : List PqState2 :=
  (successors e.state).filterMap fun t =>
    if t.pos ∈ m.walls then none
    else some ⟨e.score_so_far + stepCost e.state t, t, insert t.pos e.path⟩

/-- The result of one iteration of the `find_lowest_score_seats` loop:
`done` carries the final `best_score` and `best_seats` (the function itself
returns only the seats; its internal best score is exposed here so theorems
can speak about the best goal cost the search finalized). -/
inductive Step2Res : Type where
  | done : Option Nat → Finset Coord → Step2Res
  | next : Loop2 → Step2Res
deriving DecidableEq

/-- One iteration of the `find_lowest_score_seats` loop (`16.rs` lines
190–246): pop a minimal entry (empty queue ends the loop); break if a best
score exists and the popped score strictly exceeds it; on the end cell, set
the best score and merge the entry's path into the seat set; prune if the
state was already expanded at a strictly lower score; otherwise record the
score in `min_score_to_node` and push the three compound successors. -/
def flsSeatsStep (m : Maze) (st : Loop2) : Step2Res :=
  match popMinBy PqState2.score_so_far st.queue with
  | none => .done st.best_score st.best_seats
  | some (e, rest) =>
    if breakCond st.best_score e.score_so_far then .done st.best_score st.best_seats
    else if e.state.pos = m.end_ then
      .next ⟨rest, some e.score_so_far, st.best_seats ∪ e.path, st.min_score_to_node⟩
    else if skipCond (lookupScore st.min_score_to_node e.state) e.score_so_far then
      .next ⟨rest, st.best_score, st.best_seats, st.min_score_to_node⟩
    else
      .next ⟨rest ++ flsSeatsPushes m e, st.best_score, st.best_seats,
        (e.state, e.score_so_far) :: st.min_score_to_node⟩

/-- Fuel-indexed iteration of the `find_lowest_score_seats` loop; `some`
carries the final `(best_score, best_seats)` pair of a terminated run. -/
def find_lowest_score_seats_aux (m : Maze) : Nat → Loop2 → Option (Option Nat × Finset Coord)
  | 0, _ => none
  | fuel + 1, st =>
    match flsSeatsStep m st with
    | .done b seats => some (b, seats)
    | .next st' => find_lowest_score_seats_aux m fuel st'

/-- The initial loop state of `find_lowest_score_seats` (`16.rs` lines
171–187): one frontier entry at score 0 holding the start state and the
path `{start}`; no best score; empty seat set; empty score map. -/
def loop2Init (m : Maze) : Loop2 :=
  ⟨[⟨0, State.start_state m, {m.start}⟩], none, ∅, []⟩

/-- `find_lowest_score_seats` from `16.rs` (fuel-indexed): the set of
positions lying on some minimum-cost path, as returned by a terminated run. -/
def find_lowest_score_seats (fuel : Nat) (m : Maze) : Option (Finset Coord) :=
  (find_lowest_score_seats_aux m fuel (loop2Init m)).map fun r => r.2

theorem find_lowest_score_seats_aux_succ (m : Maze) (fuel : Nat) (st : Loop2) :
    find_lowest_score_seats_aux m (fuel + 1) st =
      match flsSeatsStep m st with
      | .done b seats => some (b, seats)
      | .next st' => find_lowest_score_seats_aux m fuel st' := rfl

theorem seatsStep_empty {m : Maze} {st : Loop2}
    (h : popMinBy PqState2.score_so_far st.queue = none) :
    flsSeatsStep m st = .done st.best_score st.best_seats := by
  unfold flsSeatsStep
  rw [h]

theorem seatsStep_break {m : Maze} {st : Loop2} {e : PqState2} {rest : List PqState2}
    (h : popMinBy PqState2.score_so_far st.queue = some (e, rest))
    (hb : breakCond st.best_score e.score_so_far = true) :
    flsSeatsStep m st = .done st.best_score st.best_seats := by
  simp [flsSeatsStep, h, hb]

theorem seatsStep_merge {m : Maze} {st : Loop2} {e : PqState2} {rest : List PqState2}
    (h : popMinBy PqState2.score_so_far st.queue = some (e, rest))
    (hb : breakCond st.best_score e.score_so_far = false)
    (hg : e.state.pos = m.end_) :
    flsSeatsStep m st =
      .next ⟨rest, some e.score_so_far, st.best_seats ∪ e.path, st.min_score_to_node⟩ := by
  simp [flsSeatsStep, h, hb, hg]

theorem seatsStep_skip {m : Maze} {st : Loop2} {e : PqState2} {rest : List PqState2}
    (h : popMinBy PqState2.score_so_far st.queue = some (e, rest))
    (hb : breakCond st.best_score e.score_so_far = false)
    (hg : ¬ e.state.pos = m.end_)
    (hs : skipCond (lookupScore st.min_score_to_node e.state) e.score_so_far = true) :
    flsSeatsStep m st = .next ⟨rest, st.best_score, st.best_seats, st.min_score_to_node⟩ := by
  simp [flsSeatsStep, h, hb, hg, hs]

theorem seatsStep_expand {m : Maze} {st : Loop2} {e : PqState2} {rest : List PqState2}
    (h : popMinBy PqState2.score_so_far st.queue = some (e, rest))
    (hb : breakCond st.best_score e.score_so_far = false)
    (hg : ¬ e.state.pos = m.end_)
    (hs : skipCond (lookupScore st.min_score_to_node e.state) e.score_so_far = false) :
    flsSeatsStep m st = .next ⟨rest ++ flsSeatsPushes m e, st.best_score, st.best_seats,
      (e.state, e.score_so_far) :: st.min_score_to_node⟩ := by
  simp [flsSeatsStep, h, hb, hg, hs]

theorem mem_flsSeatsPushes {m : Maze} {e : PqState2} {x : PqState2} :
    x ∈ flsSeatsPushes m e ↔
      edgeStep m e.state x.state ∧
        x.score_so_far = e.score_so_far + stepCost e.state x.state ∧
        x.path = insert x.state.pos e.path := by
  unfold flsSeatsPushes edgeStep
  rw [List.mem_filterMap]
  constructor
  · rintro ⟨t, ht, hsome⟩
    by_cases hw : t.pos ∈ m.walls
    · simp [hw] at hsome
    · rw [if_neg hw] at hsome
      have hx : x = ⟨e.score_so_far + stepCost e.state t, t, insert t.pos e.path⟩ := by
        simpa using hsome.symm
      subst hx
      exact ⟨⟨ht, hw⟩, rfl, rfl⟩
  · rintro ⟨⟨hsucc, hw⟩, hscore, hpath⟩
    refine ⟨x.state, hsucc, ?_⟩
    rw [if_neg hw]
    obtain ⟨sc, stt, pth⟩ := x
    simp only at hscore hpath ⊢
    rw [hscore, hpath]

/-- The loop invariant of `find_lowest_score_seats`:
* `sound`: every frontier entry records the exact end state, cost and
  position set of a real walk from the start state;
* `mapNotGoal`: states on the end cell never enter `min_score_to_node`
  (the merge branch continues before the map insert);
* `mapMin`: every recorded score is the minimal reachable cost of its state;
* `relaxA`/`relaxB`: every transition out of a recorded state leads to a
  recorded state or to a queued entry at no more than the recorded score
  plus the edge cost; for transitions into goal states this is only needed
  (and only holds) while no best score is known;
* `hstart`: the start state is recorded, or queued at cost 0, or was itself
  a goal already merged at best score 0;
* `bestLeast`: any known best score is the least goal cost;
* `bestMono`: once a best score is known, no queued entry is cheaper;
* `seatsInv`: every merged seat lies on some walk to the end cell whose
  total cost is the known best score. -/
structure Inv2 (m : Maze) (st : Loop2) : Prop where
  sound : ∀ e ∈ st.queue, ∃ l, IsWalk m (State.start_state m) l ∧
    walkEnd (State.start_state m) l = e.state ∧
    walkCost (State.start_state m) l = e.score_so_far ∧
    walkPositions (State.start_state m) l = e.path
  mapNotGoal : ∀ (s : State) (d : Nat),
    lookupScore st.min_score_to_node s = some d → s.pos ≠ m.end_
  mapMin : ∀ (s : State) (d : Nat), lookupScore st.min_score_to_node s = some d →
    Reaches m s d ∧ ∀ c, Reaches m s c → d ≤ c
  relaxA : ∀ (s : State) (d : Nat), lookupScore st.min_score_to_node s = some d →
    ∀ t, edgeStep m s t → t.pos ≠ m.end_ →
      (∃ d', lookupScore st.min_score_to_node t = some d') ∨
      ∃ e ∈ st.queue, e.state = t ∧ e.score_so_far ≤ d + stepCost s t
  relaxB : st.best_score = none → ∀ (s : State) (d : Nat),
    lookupScore st.min_score_to_node s = some d →
    ∀ t, edgeStep m s t → t.pos = m.end_ →
      ∃ e ∈ st.queue, e.state = t ∧ e.score_so_far ≤ d + stepCost s t
  hstart : (∃ d, lookupScore st.min_score_to_node (State.start_state m) = some d) ∨
    (∃ e ∈ st.queue, e.state = State.start_state m ∧ e.score_so_far = 0) ∨
    (st.best_score = some 0 ∧ (State.start_state m).pos = m.end_)
  bestLeast : ∀ b, st.best_score = some b → IsLeast {c | GoalCost m c} b
  bestMono : ∀ b, st.best_score = some b → ∀ e ∈ st.queue, b ≤ e.score_so_far
  seatsInv : ∀ p ∈ st.best_seats, ∃ b, st.best_score = some b ∧ OnOptimal m b p

theorem inv2_init (m : Maze) : Inv2 m (loop2Init m) := by
  refine ⟨?_, by simp [loop2Init, lookupScore], by simp [loop2Init, lookupScore],
    by simp [loop2Init, lookupScore], by simp [loop2Init, lookupScore],
    ?_, by simp [loop2Init], by simp [loop2Init], by simp [loop2Init]⟩
  · intro e he
    simp only [loop2Init, List.mem_singleton] at he
    subst he
    exact ⟨[], isWalk_nil m _, rfl, rfl, by simp [walkPositions]; rfl⟩
  · exact Or.inr (Or.inl ⟨⟨0, State.start_state m, {m.start}⟩,
      List.mem_singleton_self _, rfl, rfl⟩)

/-- Frontier lemma for the seats loop, inner induction: a walk starting at a
recorded state and ending at an unrecorded one is covered by a queued entry
of score at most the walk's cost — unless the walk crosses a goal state
after a best score is known, which forces its cost strictly above the best. -/
theorem inv2_walk_bound_aux {m : Maze} {st : Loop2} (hInv : Inv2 m st) :
    ∀ (l : List State) (u : State) (du : Nat),
      lookupScore st.min_score_to_node u = some du →
      IsWalk m u l →
      lookupScore st.min_score_to_node (walkEnd u l) = none →
      (st.best_score = none ∨ (walkEnd u l).pos ≠ m.end_) →
      (∃ e ∈ st.queue, e.score_so_far ≤ du + walkCost u l) ∨
      (∃ b, st.best_score = some b ∧ b < du + walkCost u l) := by
  intro l
  induction l with
  | nil =>
    intro u du hmap _ hend _
    rw [walkEnd_nil, hmap] at hend
    cases hend
  | cons t l ih =>
    intro u du hmap hwalk hend hgs
    rcases (isWalk_cons m u t l).mp hwalk with ⟨hut, hwl⟩
    rw [walkEnd_cons] at hend hgs
    have hreach_u : Reaches m u du := (hInv.mapMin u du hmap).1
    have hreach_t : Reaches m t (du + stepCost u t) := hreach_u.extend hut
    by_cases htg : t.pos = m.end_
    · rcases hbs : st.best_score with _ | b
      · obtain ⟨e, he, -, hbound⟩ := hInv.relaxB hbs u du hmap t hut htg
        left
        refine ⟨e, he, ?_⟩
        rw [walkCost_cons]
        omega
      · have hble : b ≤ du + stepCost u t := (hInv.bestLeast b hbs).2 ⟨t, hreach_t, htg⟩
        rcases hgs with hnone | hng
        · rw [hbs] at hnone
          cases hnone
        · cases l with
          | nil => exact absurd htg (by simpa using hng)
          | cons t2 l2 =>
            right
            refine ⟨b, rfl, ?_⟩
            have h1 := walkCost_pos t t2 l2
            rw [walkCost_cons]
            omega
    · rcases hInv.relaxA u du hmap t hut htg with ⟨d', hd'⟩ | ⟨e, he, -, hbound⟩
      · have hd'min := (hInv.mapMin t d' hd').2 _ hreach_t
        rcases ih t d' hd' hwl hend hgs with ⟨e, he, hb⟩ | ⟨b, hbs, hb⟩
        · left
          refine ⟨e, he, ?_⟩
          rw [walkCost_cons]
          omega
        · right
          refine ⟨b, hbs, ?_⟩
          rw [walkCost_cons]
          omega
      · left
        refine ⟨e, he, ?_⟩
        rw [walkCost_cons]
        omega

/-- Frontier lemma for the seats loop: a walk from the start state to an
unrecorded state is covered by a queued entry of score at most the walk's
cost, or a best score strictly below that cost is already known. -/
theorem inv2_walk_bound {m : Maze} {st : Loop2} (hInv : Inv2 m st) (l : List State)
    (hw : IsWalk m (State.start_state m) l)
    (hend : lookupScore st.min_score_to_node (walkEnd (State.start_state m) l) = none)
    (hgs : st.best_score = none ∨ (walkEnd (State.start_state m) l).pos ≠ m.end_) :
    (∃ e ∈ st.queue, e.score_so_far ≤ walkCost (State.start_state m) l) ∨
    (∃ b, st.best_score = some b ∧ b < walkCost (State.start_state m) l) := by
  rcases hInv.hstart with ⟨d, hd⟩ | ⟨e, he, hst, hsc⟩ | ⟨hb0, hgoal⟩
  · have hd0 : d ≤ 0 := (hInv.mapMin _ d hd).2 0 (reaches_start m)
    rcases inv2_walk_bound_aux hInv l (State.start_state m) d hd hw hend hgs with
      ⟨e, he, hb⟩ | ⟨b, hbs, hb⟩
    · left
      exact ⟨e, he, by omega⟩
    · right
      exact ⟨b, hbs, by omega⟩
  · left
    exact ⟨e, he, by rw [hsc]; omega⟩
  · rcases hgs with hnone | hng
    · rw [hb0] at hnone
      cases hnone
    · cases l with
      | nil => exact absurd hgoal (by simpa using hng)
      | cons t l' =>
        right
        exact ⟨0, hb0, walkCost_pos _ t l'⟩

theorem breakCond_false_le {b s : Nat} {o : Option Nat} (ho : o = some b)
    (hb : breakCond o s = false) : s ≤ b := by
  subst ho
  by_contra hlt
  simp [breakCond] at hb
  omega

/-- The score a goal entry is merged at equals any previously known best
score (pops are not below the best by `bestMono`, not above it by the break
guard), and is the least goal cost. -/
theorem merge_score_least {m : Maze} {st : Loop2} {e : PqState2} {rest : List PqState2}
    (hInv : Inv2 m st)
    (hpop : popMinBy PqState2.score_so_far st.queue = some (e, rest))
    (hb : breakCond st.best_score e.score_so_far = false)
    (hg : e.state.pos = m.end_) :
    IsLeast {c | GoalCost m c} e.score_so_far := by
  have hGC : GoalCost m e.score_so_far := by
    obtain ⟨l, hw, hend, hcost, -⟩ := hInv.sound e (popMinBy_mem hpop)
    exact ⟨e.state, ⟨l, hw, hend, hcost⟩, hg⟩
  rcases hbs : st.best_score with _ | b
  · refine ⟨hGC, ?_⟩
    rintro c ⟨t, ⟨l, hw, hend, hcost⟩, htpos⟩
    have hlt : lookupScore st.min_score_to_node t = none := by
      rcases hl : lookupScore st.min_score_to_node t with _ | d
      · rfl
      · exact absurd htpos (hInv.mapNotGoal t d hl)
    rcases inv2_walk_bound hInv l hw (by rw [hend]; exact hlt) (Or.inl hbs) with
      ⟨e', he', hb'⟩ | ⟨b, hbs', -⟩
    · have := popMinBy_min hpop e' he'
      omega
    · rw [hbs] at hbs'
      cases hbs'
  · have h1 : b ≤ e.score_so_far := hInv.bestMono b hbs e (popMinBy_mem hpop)
    have h2 : e.score_so_far ≤ b := breakCond_false_le hbs hb
    have he : e.score_so_far = b := by omega
    rw [he]
    exact hInv.bestLeast b hbs

theorem inv2_preserved_merge {m : Maze} {st : Loop2} {e : PqState2} {rest : List PqState2}
    (hInv : Inv2 m st)
    (hpop : popMinBy PqState2.score_so_far st.queue = some (e, rest))
    (hb : breakCond st.best_score e.score_so_far = false)
    (hg : e.state.pos = m.end_) :
    Inv2 m ⟨rest, some e.score_so_far, st.best_seats ∪ e.path, st.min_score_to_node⟩ := by
  have hLeast := merge_score_least hInv hpop hb hg
  refine ⟨fun x hx => hInv.sound x (popMinBy_rest_subset hpop x hx),
    hInv.mapNotGoal, hInv.mapMin, ?_, ?_, ?_, ?_, ?_, ?_⟩
  · intro s d hmap t hedge htng
    rcases hInv.relaxA s d hmap t hedge htng with h | ⟨e', he', hst, hbnd⟩
    · exact Or.inl h
    · rcases popMinBy_mem_split hpop e' he' with heq | hr
      · rw [heq] at hst
        rw [← hst] at htng
        exact absurd hg htng
      · exact Or.inr ⟨e', hr, hst, hbnd⟩
  · intro hnone
    simp at hnone
  · rcases hInv.hstart with ⟨d, hd⟩ | ⟨e', he', hst, hsc⟩ | ⟨hb0, hgoal⟩
    · exact Or.inl ⟨d, hd⟩
    · rcases popMinBy_mem_split hpop e' he' with heq | hr
      · refine Or.inr (Or.inr ⟨?_, ?_⟩)
        · rw [show e.score_so_far = 0 from by rw [← heq]; exact hsc]
        · rw [← hst, heq]
          exact hg
      · exact Or.inr (Or.inl ⟨e', hr, hst, hsc⟩)
    · refine Or.inr (Or.inr ⟨?_, hgoal⟩)
      have h2 : e.score_so_far ≤ 0 := breakCond_false_le hb0 hb
      rw [show e.score_so_far = 0 from by omega]
  · intro b' hb'
    injection hb' with hh
    subst hh
    exact hLeast
  · intro b' hb' x hx
    injection hb' with hh
    subst hh
    exact popMinBy_min hpop x (popMinBy_rest_subset hpop x hx)
  · intro p hp
    rcases Finset.mem_union.mp hp with hpo | hpe
    · obtain ⟨b, hbs, hOn⟩ := hInv.seatsInv p hpo
      have h1 : b ≤ e.score_so_far := hInv.bestMono b hbs e (popMinBy_mem hpop)
      have h2 : e.score_so_far ≤ b := breakCond_false_le hbs hb
      have hbe : b = e.score_so_far := by omega
      exact ⟨e.score_so_far, rfl, hbe ▸ hOn⟩
    · obtain ⟨l, hw, hend, hcost, hpos⟩ := hInv.sound e (popMinBy_mem hpop)
      exact ⟨e.score_so_far, rfl, l, hw, by rw [hend]; exact hg, hcost,
        by rw [hpos]; exact hpe⟩

theorem inv2_preserved_skip {m : Maze} {st : Loop2} {e : PqState2} {rest : List PqState2}
    (hInv : Inv2 m st)
    (hpop : popMinBy PqState2.score_so_far st.queue = some (e, rest))
    (hg : ¬ e.state.pos = m.end_)
    (hs : skipCond (lookupScore st.min_score_to_node e.state) e.score_so_far = true) :
    Inv2 m ⟨rest, st.best_score, st.best_seats, st.min_score_to_node⟩ := by
  have hmapE : ∃ d, lookupScore st.min_score_to_node e.state = some d := by
    rcases hl : lookupScore st.min_score_to_node e.state with _ | d
    · rw [hl] at hs
      simp [skipCond] at hs
    · exact ⟨d, rfl⟩
  refine ⟨fun x hx => hInv.sound x (popMinBy_rest_subset hpop x hx),
    hInv.mapNotGoal, hInv.mapMin, ?_, ?_, ?_, hInv.bestLeast, ?_, hInv.seatsInv⟩
  · intro s d hmap t hedge htng
    rcases hInv.relaxA s d hmap t hedge htng with h | ⟨e', he', hst, hbnd⟩
    · exact Or.inl h
    · rcases popMinBy_mem_split hpop e' he' with heq | hr
      · rw [heq] at hst
        exact Or.inl (hst ▸ hmapE)
      · exact Or.inr ⟨e', hr, hst, hbnd⟩
  · intro hnone s d hmap t hedge htg
    obtain ⟨e', he', hst, hbnd⟩ := hInv.relaxB hnone s d hmap t hedge htg
    rcases popMinBy_mem_split hpop e' he' with heq | hr
    · rw [heq] at hst
      rw [← hst] at htg
      exact absurd htg hg
    · exact ⟨e', hr, hst, hbnd⟩
  · rcases hInv.hstart with h | ⟨e', he', hst, hsc⟩ | h
    · exact Or.inl h
    · rcases popMinBy_mem_split hpop e' he' with heq | hr
      · rw [heq] at hst
        exact Or.inl (hst ▸ hmapE)
      · exact Or.inr (Or.inl ⟨e', hr, hst, hsc⟩)
    · exact Or.inr (Or.inr h)
  · intro b hbs x hx
    exact hInv.bestMono b hbs x (popMinBy_rest_subset hpop x hx)

theorem inv2_preserved_expand {m : Maze} {st : Loop2} {e : PqState2} {rest : List PqState2}
    (hInv : Inv2 m st)
    (hpop : popMinBy PqState2.score_so_far st.queue = some (e, rest))
    (hbk : breakCond st.best_score e.score_so_far = false)
    (hg : ¬ e.state.pos = m.end_)
    (hs : skipCond (lookupScore st.min_score_to_node e.state) e.score_so_far = false) :
    Inv2 m ⟨rest ++ flsSeatsPushes m e, st.best_score, st.best_seats,
      (e.state, e.score_so_far) :: st.min_score_to_node⟩ := by
  obtain ⟨l, hw, hend, hcost, hpos⟩ := hInv.sound e (popMinBy_mem hpop)
  have hreach_e : Reaches m e.state e.score_so_far := ⟨l, hw, hend, hcost⟩
  have hmin_e : ∀ c, Reaches m e.state c → e.score_so_far ≤ c := by
    rcases hl : lookupScore st.min_score_to_node e.state with _ | d
    · rintro c ⟨l', hw', hend', hcost'⟩
      rcases inv2_walk_bound hInv l' hw' (by rw [hend']; exact hl)
          (Or.inr (by rw [hend']; exact hg)) with ⟨e', he', hb'⟩ | ⟨b, hbs, hblt⟩
      · have := popMinBy_min hpop e' he'
        omega
      · have h2 := breakCond_false_le hbs hbk
        omega
    · intro c hc
      have hd := (hInv.mapMin _ d hl).2 c hc
      have hds : ¬ d < e.score_so_far := by
        intro hlt
        rw [hl] at hs
        simp [skipCond] at hs
        omega
      omega
  have hlookup : ∀ s : State,
      lookupScore ((e.state, e.score_so_far) :: st.min_score_to_node) s =
        if s = e.state then some e.score_so_far
        else lookupScore st.min_score_to_node s := fun s => rfl
  refine ⟨?_, ?_, ?_, ?_, ?_, ?_, hInv.bestLeast, ?_, hInv.seatsInv⟩
  · intro x hx
    rcases List.mem_append.mp hx with hr | hp
    · exact hInv.sound x (popMinBy_rest_subset hpop x hr)
    · obtain ⟨hedge, hscore, hpath⟩ := mem_flsSeatsPushes.mp hp
      refine ⟨l ++ [x.state], isWalk_append_single m _ _ l hw (hend ▸ hedge),
        walkEnd_append_single _ _ l, ?_, ?_⟩
      · rw [walkCost_append_single, hcost, hend, hscore]
      · rw [walkPositions_append_single, hpos, hpath]
  · intro s d hmap
    rw [hlookup] at hmap
    by_cases hse : s = e.state
    · rw [if_pos hse] at hmap
      rw [hse]
      exact hg
    · rw [if_neg hse] at hmap
      exact hInv.mapNotGoal s d hmap
  · intro s d hmap
    rw [hlookup] at hmap
    by_cases hse : s = e.state
    · rw [if_pos hse] at hmap
      injection hmap with hh
      subst hse
      rw [← hh]
      exact ⟨hreach_e, hmin_e⟩
    · rw [if_neg hse] at hmap
      exact hInv.mapMin s d hmap
  · intro s d hmap t hedge htng
    rw [hlookup] at hmap
    by_cases hse : s = e.state
    · rw [if_pos hse] at hmap
      injection hmap with hh
      subst hse
      refine Or.inr ⟨⟨e.score_so_far + stepCost e.state t, t, insert t.pos e.path⟩,
        List.mem_append_right _ (mem_flsSeatsPushes.mpr ⟨hedge, rfl, rfl⟩), rfl, ?_⟩
      rw [← hh]
    · rw [if_neg hse] at hmap
      rcases hInv.relaxA s d hmap t hedge htng with ⟨d', hd'⟩ | ⟨e', he', hst, hbnd⟩
      · refine Or.inl ?_
        rw [hlookup]
        by_cases hte : t = e.state
        · exact ⟨e.score_so_far, if_pos hte ▸ rfl⟩
        · exact ⟨d', by rw [if_neg hte]; exact hd'⟩
      · rcases popMinBy_mem_split hpop e' he' with heq | hr
        · rw [heq] at hst
          refine Or.inl ⟨e.score_so_far, ?_⟩
          rw [hlookup, if_pos hst.symm]
        · exact Or.inr ⟨e', List.mem_append_left _ hr, hst, hbnd⟩
  · intro hnone s d hmap t hedge htg
    rw [hlookup] at hmap
    by_cases hse : s = e.state
    · rw [if_pos hse] at hmap
      injection hmap with hh
      subst hse
      refine ⟨⟨e.score_so_far + stepCost e.state t, t, insert t.pos e.path⟩,
        List.mem_append_right _ (mem_flsSeatsPushes.mpr ⟨hedge, rfl, rfl⟩), rfl, ?_⟩
      rw [← hh]
    · rw [if_neg hse] at hmap
      obtain ⟨e', he', hst, hbnd⟩ := hInv.relaxB hnone s d hmap t hedge htg
      rcases popMinBy_mem_split hpop e' he' with heq | hr
      · rw [heq] at hst
        rw [← hst] at htg
        exact absurd htg hg
      · exact ⟨e', List.mem_append_left _ hr, hst, hbnd⟩
  · rcases hInv.hstart with ⟨d, hd⟩ | ⟨e', he', hst, hsc⟩ | h
    · refine Or.inl ?_
      rw [hlookup]
      by_cases hse : State.start_state m = e.state
      · exact ⟨e.score_so_far, by rw [if_pos hse]⟩
      · exact ⟨d, by rw [if_neg hse]; exact hd⟩
    · rcases popMinBy_mem_split hpop e' he' with heq | hr
      · rw [heq] at hst
        refine Or.inl ⟨e.score_so_far, ?_⟩
        rw [hlookup, if_pos hst.symm]
      · exact Or.inr (Or.inl ⟨e', List.mem_append_left _ hr, hst, hsc⟩)
    · exact Or.inr (Or.inr h)
  · intro b hbs x hx
    rcases List.mem_append.mp hx with hr | hp
    · exact hInv.bestMono b hbs x (popMinBy_rest_subset hpop x hr)
    · obtain ⟨-, hscore, -⟩ := mem_flsSeatsPushes.mp hp
      have h1 := hInv.bestMono b hbs e (popMinBy_mem hpop)
      rw [hscore]
      omega

theorem bool_not_true {b : Bool} (h : ¬ b = true) : b = false := by
  cases b
  · rfl
  · exact absurd rfl h

/-- Any terminating run of the `find_lowest_score_seats` loop from an
invariant state returns a best score equal to the least goal cost (whenever
some goal is reachable) and a seat set all of whose positions lie on walks
to the end cell of exactly that cost. -/
theorem fls_seats_aux_correct (m : Maze) :
    ∀ (fuel : Nat) (st : Loop2), Inv2 m st →
      ∀ res, find_lowest_score_seats_aux m fuel st = some res →
        (∀ c, GoalCost m c → ∃ bv, res.1 = some bv ∧ IsLeast {x | GoalCost m x} bv) ∧
        (∀ p ∈ res.2, ∃ bv, res.1 = some bv ∧ OnOptimal m bv p) := by
  intro fuel
  induction fuel with
  | zero =>
    intro st _ res hres
    simp [find_lowest_score_seats_aux] at hres
  | succ fuel ih =>
    intro st hInv res hres
    rw [find_lowest_score_seats_aux_succ] at hres
    rcases hpop : popMinBy PqState2.score_so_far st.queue with _ | ⟨e, rest⟩
    · rw [seatsStep_empty hpop] at hres
      have hres' : res = (st.best_score, st.best_seats) := by simpa using hres.symm
      subst hres'
      constructor
      · intro c hGC
        rcases hbs : st.best_score with _ | b
        · exfalso
          rcases hGC with ⟨t, ⟨l, hw, hend, hcost⟩, htpos⟩
          have hlt : lookupScore st.min_score_to_node t = none := by
            rcases hl : lookupScore st.min_score_to_node t with _ | d
            · rfl
            · exact absurd htpos (hInv.mapNotGoal t d hl)
          rcases inv2_walk_bound hInv l hw (by rw [hend]; exact hlt) (Or.inl hbs) with
            ⟨e', he', -⟩ | ⟨b, hbs', -⟩
          · rw [(popMinBy_eq_none _ _).mp hpop] at he'
            simp at he'
          · rw [hbs] at hbs'
            cases hbs'
        · exact ⟨b, rfl, hInv.bestLeast b hbs⟩
      · exact fun p hp => hInv.seatsInv p hp
    · by_cases hbk : breakCond st.best_score e.score_so_far = true
      · rw [seatsStep_break hpop hbk] at hres
        have hres' : res = (st.best_score, st.best_seats) := by simpa using hres.symm
        subst hres'
        constructor
        · intro c hGC
          rcases hbs : st.best_score with _ | b
          · rw [hbs] at hbk
            simp [breakCond] at hbk
          · exact ⟨b, rfl, hInv.bestLeast b hbs⟩
        · exact fun p hp => hInv.seatsInv p hp
      · have hbk' := bool_not_true hbk
        by_cases hg : e.state.pos = m.end_
        · rw [seatsStep_merge hpop hbk' hg] at hres
          exact ih _ (inv2_preserved_merge hInv hpop hbk' hg) res hres
        · by_cases hsk :
            skipCond (lookupScore st.min_score_to_node e.state) e.score_so_far = true
          · rw [seatsStep_skip hpop hbk' hg hsk] at hres
            exact ih _ (inv2_preserved_skip hInv hpop hg hsk) res hres
          · rw [seatsStep_expand hpop hbk' hg (bool_not_true hsk)] at hres
            exact ih _ (inv2_preserved_expand hInv hpop hbk' hg (bool_not_true hsk)) res hres

/-! ### C2: the seats search agrees with the single-answer search -/

/-- C2: whenever the single-answer search completes with a score and the
all-optimal-paths search completes, the best goal cost finalized by the
latter is exactly the single-answer score, and every position merged into
the returned seat set lies on a walk from start to the end cell whose total
cost is exactly that single-answer score. -/
theorem seats_search_refines_single (m : Maze) (fa fb ms : Nat)
    (res : Option Nat × Finset Coord)
    (h1 : find_lowest_score fa m = some (some ms))
    (h2 : find_lowest_score_seats_aux m fb (loop2Init m) = some res) :
    res.1 = some ms ∧ find_lowest_score_seats fb m = some res.2 ∧
      ∀ p ∈ res.2, OnOptimal m ms p := by
  have hleast : IsLeast {c | GoalCost m c} ms :=
    (fls_aux_correct m fa _ _ (inv1_init m) _ h1).1 ms rfl
  obtain ⟨hb, hseats⟩ := fls_seats_aux_correct m fb _ (inv2_init m) res h2
  obtain ⟨bv, hbv, hbleast⟩ := hb ms hleast.1
  have hbv_ms : bv = ms := le_antisymm (hbleast.2 hleast.1) (hleast.2 hbleast.1)
  refine ⟨by rw [hbv, hbv_ms], ?_, ?_⟩
  · unfold find_lowest_score_seats
    rw [h2]
    rfl
  · intro p hp
    obtain ⟨bv', hbv', hOn⟩ := hseats p hp
    rw [hbv] at hbv'
    injection hbv' with hh
    rw [← hh, hbv_ms] at hOn
    exact hOn

/-- Witness for C2 at a concrete one-step maze: both searches complete, the
seats search finalizes best score 1 (the single-answer result) and returns
the two positions of the unique optimal path. -/
theorem seats_search_refines_single_witness :
    (some 1 : Option Nat) = some 1 ∧
      find_lowest_score_seats 3 ⟨⟨0,0⟩, ⟨1,0⟩, []⟩ =
        some (∅ ∪ insert (⟨1,0⟩ : Coord) ({⟨0,0⟩} : Finset Coord)) ∧
      ∀ p ∈ (∅ ∪ insert (⟨1,0⟩ : Coord) ({⟨0,0⟩} : Finset Coord)),
        OnOptimal ⟨⟨0,0⟩, ⟨1,0⟩, []⟩ 1 p := by
  have hrun : find_lowest_score_seats_aux ⟨⟨0,0⟩, ⟨1,0⟩, []⟩ 3
      (loop2Init ⟨⟨0,0⟩, ⟨1,0⟩, []⟩) =
      some (some 1, ∅ ∪ insert (⟨1,0⟩ : Coord) ({⟨0,0⟩} : Finset Coord)) := rfl
  have h := seats_search_refines_single ⟨⟨0,0⟩, ⟨1,0⟩, []⟩ 3 3 1
    (some 1, ∅ ∪ insert (⟨1,0⟩ : Coord) ({⟨0,0⟩} : Finset Coord)) (by decide) hrun
  exact h

/-! ### C3: equal-cost entries are drained, strictly worse ones stop the search -/

theorem seatsStep_done_inv {m : Maze} {st : Loop2} {b : Option Nat} {seats : Finset Coord}
    (h : flsSeatsStep m st = .done b seats) :
    b = st.best_score ∧ seats = st.best_seats := by
  rcases hpop : popMinBy PqState2.score_so_far st.queue with _ | ⟨e, rest⟩
  · rw [seatsStep_empty hpop] at h
    injection h with h1 h2
    exact ⟨h1.symm, h2.symm⟩
  · by_cases hbk : breakCond st.best_score e.score_so_far = true
    · rw [seatsStep_break hpop hbk] at h
      injection h with h1 h2
      exact ⟨h1.symm, h2.symm⟩
    · have hbk' := bool_not_true hbk
      by_cases hg : e.state.pos = m.end_
      · rw [seatsStep_merge hpop hbk' hg] at h
        cases h
      · by_cases hsk :
          skipCond (lookupScore st.min_score_to_node e.state) e.score_so_far = true
        · rw [seatsStep_skip hpop hbk' hg hsk] at h
          cases h
        · rw [seatsStep_expand hpop hbk' hg (bool_not_true hsk)] at h
          cases h

theorem seatsStep_seats_mono {m : Maze} {st st' : Loop2}
    (h : flsSeatsStep m st = .next st') : st.best_seats ⊆ st'.best_seats := by
  rcases hpop : popMinBy PqState2.score_so_far st.queue with _ | ⟨e, rest⟩
  · rw [seatsStep_empty hpop] at h
    cases h
  · by_cases hbk : breakCond st.best_score e.score_so_far = true
    · rw [seatsStep_break hpop hbk] at h
      cases h
    · have hbk' := bool_not_true hbk
      by_cases hg : e.state.pos = m.end_
      · rw [seatsStep_merge hpop hbk' hg] at h
        injection h with hh
        rw [← hh]
        exact Finset.subset_union_left
      · by_cases hsk :
          skipCond (lookupScore st.min_score_to_node e.state) e.score_so_far = true
        · rw [seatsStep_skip hpop hbk' hg hsk] at h
          injection h with hh
          rw [← hh]
        · rw [seatsStep_expand hpop hbk' hg (bool_not_true hsk)] at h
          injection h with hh
          rw [← hh]

theorem seats_run_mono (m : Maze) :
    ∀ (fuel : Nat) (st : Loop2) (res : Option Nat × Finset Coord),
      find_lowest_score_seats_aux m fuel st = some res → st.best_seats ⊆ res.2 := by
  intro fuel
  induction fuel with
  | zero =>
    intro st res h
    simp [find_lowest_score_seats_aux] at h
  | succ fuel ih =>
    intro st res h
    rw [find_lowest_score_seats_aux_succ] at h
    cases hstep : flsSeatsStep m st with
    | done b seats =>
      rw [hstep] at h
      obtain ⟨-, hseats⟩ := seatsStep_done_inv hstep
      have hres : res = (b, seats) := by simpa using h.symm
      rw [hres, hseats]
    | next st' =>
      rw [hstep] at h
      exact subset_trans (seatsStep_seats_mono hstep) (ih st' res h)

/-- C3: in the all-optimal-paths search, once a best goal cost `b` is known,
an iteration stops the search only when the popped score strictly exceeds
`b`; a popped entry with score at most `b` is still processed — a goal entry
is merged (its path's positions are added to the seat set, and they survive
into the final result of any terminating continuation), and a non-goal entry
is pruned or expanded but never stops the loop. -/
theorem seats_search_equal_cost_drained (m : Maze) (st : Loop2) (b : Nat)
    (e : PqState2) (rest : List PqState2)
    (hpop : popMinBy PqState2.score_so_far st.queue = some (e, rest))
    (hbest : st.best_score = some b) :
    (b < e.score_so_far → flsSeatsStep m st = .done st.best_score st.best_seats) ∧
    (e.score_so_far ≤ b → e.state.pos = m.end_ →
      flsSeatsStep m st =
        .next ⟨rest, some e.score_so_far, st.best_seats ∪ e.path, st.min_score_to_node⟩) ∧
    (e.score_so_far ≤ b → e.state.pos ≠ m.end_ →
      flsSeatsStep m st = .next ⟨rest, st.best_score, st.best_seats, st.min_score_to_node⟩ ∨
      flsSeatsStep m st = .next ⟨rest ++ flsSeatsPushes m e, st.best_score, st.best_seats,
        (e.state, e.score_so_far) :: st.min_score_to_node⟩) ∧
    (∀ (fuel : Nat) (res : Option Nat × Finset Coord), e.score_so_far ≤ b →
      e.state.pos = m.end_ →
      find_lowest_score_seats_aux m (fuel + 1) st = some res → e.path ⊆ res.2) := by
  have hbkfalse : e.score_so_far ≤ b →
      breakCond st.best_score e.score_so_far = false := by
    intro hle
    rw [hbest]
    simp [breakCond]
    omega
  refine ⟨?_, ?_, ?_, ?_⟩
  · intro hlt
    refine seatsStep_break hpop ?_
    rw [hbest]
    simp [breakCond]
    omega
  · intro hle hg
    exact seatsStep_merge hpop (hbkfalse hle) hg
  · intro hle hg
    by_cases hsk : skipCond (lookupScore st.min_score_to_node e.state) e.score_so_far = true
    · exact Or.inl (seatsStep_skip hpop (hbkfalse hle) hg hsk)
    · exact Or.inr (seatsStep_expand hpop (hbkfalse hle) hg (bool_not_true hsk))
  · intro fuel res hle hg hrun
    rw [find_lowest_score_seats_aux_succ, seatsStep_merge hpop (hbkfalse hle) hg] at hrun
    have hmono := seats_run_mono m fuel _ res hrun
    exact subset_trans Finset.subset_union_right hmono

/-- Witness for C3: a concrete merge step at score equal to the best score. -/
theorem seats_search_equal_cost_drained_witness :
    flsSeatsStep ⟨⟨0,0⟩, ⟨0,0⟩, []⟩
        ⟨[⟨5, ⟨⟨0,0⟩, .Right⟩, ({⟨0,0⟩} : Finset Coord)⟩], some 5, ∅, []⟩ =
      .next ⟨[], some 5, ∅ ∪ ({⟨0,0⟩} : Finset Coord), []⟩ := by
  have hpop0 : popMinBy PqState2.score_so_far
      [(⟨5, ⟨⟨0,0⟩, .Right⟩, ({⟨0,0⟩} : Finset Coord)⟩ : PqState2)] =
      some (⟨5, ⟨⟨0,0⟩, .Right⟩, ({⟨0,0⟩} : Finset Coord)⟩, []) := rfl
  have h := seats_search_equal_cost_drained ⟨⟨0,0⟩, ⟨0,0⟩, []⟩
    ⟨[⟨5, ⟨⟨0,0⟩, .Right⟩, ({⟨0,0⟩} : Finset Coord)⟩], some 5, ∅, []⟩ 5
    ⟨5, ⟨⟨0,0⟩, .Right⟩, ({⟨0,0⟩} : Finset Coord)⟩ [] hpop0 rfl
  exact h.2.1 (le_refl 5) rfl

/-! ### C9: start equals end -/

/-- C9: if the maze's start coordinate equals its end coordinate, the very
first pop returns cost 0 from `find_lowest_score`, and
`find_lowest_score_seats` returns exactly the singleton `{start}`. -/
theorem start_eq_end_trivial (m : Maze) (h : m.start = m.end_) :
    (∀ fuel, find_lowest_score (fuel + 1) m = some (some 0)) ∧
    (∀ fuel, find_lowest_score_seats (fuel + 2) m = some {m.start}) := by
  have hg : (State.start_state m).pos = m.end_ := h
  constructor
  · intro fuel
    unfold find_lowest_score
    rw [find_lowest_score_aux_succ,
      flsStep_goal (show popMinBy PqState.score_so_far [⟨0, State.start_state m⟩] =
        some (⟨0, State.start_state m⟩, []) from rfl) hg]
  · intro fuel
    have hpop1 : popMinBy PqState2.score_so_far (loop2Init m).queue =
        some (⟨0, State.start_state m, ({m.start} : Finset Coord)⟩, []) := rfl
    have h1 : flsSeatsStep m (loop2Init m) =
        .next ⟨[], some 0, ∅ ∪ ({m.start} : Finset Coord), []⟩ := by
      exact seatsStep_merge hpop1 rfl hg
    have h2 : flsSeatsStep m ⟨[], some 0, ∅ ∪ ({m.start} : Finset Coord), []⟩ =
        .done (some 0) (∅ ∪ ({m.start} : Finset Coord)) :=
      seatsStep_empty rfl
    have e1 : find_lowest_score_seats_aux m (fuel + 2) (loop2Init m) =
        find_lowest_score_seats_aux m (fuel + 1) ⟨[], some 0, ∅ ∪ ({m.start} : Finset Coord), []⟩ := by
      rw [find_lowest_score_seats_aux_succ, h1]
    have e2 : find_lowest_score_seats_aux m (fuel + 1)
          ⟨[], some 0, ∅ ∪ ({m.start} : Finset Coord), []⟩ =
        some (some 0, ∅ ∪ ({m.start} : Finset Coord)) := by
      rw [find_lowest_score_seats_aux_succ, h2]
    unfold find_lowest_score_seats
    rw [e1, e2]
    simp

/-- Witness for C9 at a concrete maze whose start is its end. -/
theorem start_eq_end_trivial_witness :
    find_lowest_score 1 ⟨⟨2,3⟩, ⟨2,3⟩, []⟩ = some (some 0) ∧
    find_lowest_score_seats 2 ⟨⟨2,3⟩, ⟨2,3⟩, []⟩ = some {⟨2,3⟩} :=
  ⟨(start_eq_end_trivial ⟨⟨2,3⟩, ⟨2,3⟩, []⟩ rfl).1 0,
   (start_eq_end_trivial ⟨⟨2,3⟩, ⟨2,3⟩, []⟩ rfl).2 0⟩

end Aoc2024
